import Mathlib

/-!
# Verification of the offtheclock PTO accrual / projection engine

Shallow embedding of the client-side projection simulation
(`src/frontend/src/pages/Projections/ProjectionsPage.tsx`, the `chartData`
`useMemo` body) and of the duration formatting/parsing utilities
(`src/frontend/src/utils/format.ts`).

Modelling conventions:
* JavaScript numbers are idealised as rationals (`ℚ`); the special values
  produced by string→number coercion (`NaN`, `±Infinity`) are modelled by an
  explicit `JSNumber` type where they can be observed.
* JavaScript `Date` values are modelled at calendar-day granularity as a
  count of days since 1970-01-01 (`ℕ`); `getFullYear`/`getMonth`/`getDate`
  are computed by the standard proleptic-Gregorian civil-from-days
  algorithm, which is the calendar ECMAScript specifies, and `getDay`
  uses the fact that 1970-01-01 was a Thursday.  Time-of-day is irrelevant
  to the simulated logic (`addDays` preserves it, so `currentSimDate <=
  endDate` runs exactly `projectionDays + 1` iterations).
* Strings are modelled as `List Char`.
-/

/-! ## Calendar model (JS `Date` at day granularity) -/

/-- Day of week of day number `d` (days since 1970-01-01, which was a
Thursday).  `0` is Sunday, matching JS `Date.prototype.getDay`. -/
def getDay (d : ℕ) : ℕ := (d + 4) % 7

/-- Civil (proleptic Gregorian) date of day number `z`: `(year, month, day)`
with `month ∈ [1,12]`, `day ∈ [1,31]`.  Standard civil-from-days algorithm;
every intermediate quantity is a natural number for `z ≥ 0`. -/
def civilFromDays (z : ℕ) : ℕ × ℕ × ℕ :=
  let z' := z + 719468
  let era := z' / 146097
  let doe := z' % 146097
  let yoe := (doe - doe / 1460 + doe / 36524 - doe / 146096) / 365
  let y := yoe + era * 400
  let doy := doe - (365 * yoe + yoe / 4 - yoe / 100)
  let mp := (5 * doy + 2) / 153
  let dd := doy - (153 * mp + 2) / 5 + 1
  let m := if mp < 10 then mp + 3 else mp - 9
  (if m ≤ 2 then y + 1 else y, m, dd)

/-- JS `getFullYear` of a day number. -/
def getFullYear (d : ℕ) : ℕ := (civilFromDays d).1

/-- JS `getMonth` of a day number (0-based month, January = 0). -/
def getMonth (d : ℕ) : ℕ := (civilFromDays d).2.1 - 1

/-- JS `getDate` of a day number (1-based day of month). -/
def getDate (d : ℕ) : ℕ := (civilFromDays d).2.2

/-! ## Data model (`src/frontend/src/domain/schemas/pto.ts`) -/

/-- `AccrualFrequencySchema = z.enum(['daily','weekly','biweekly','monthly','annually'])`,
also mirrored by the `AccrualFrequency` const object in `ProjectionsPage.tsx`. -/
inductive AccrualFrequency where
  | daily
  | weekly
  | biweekly
  | monthly
  | annually
deriving DecidableEq, Repr

/-- `PTOCategorySchema` (zod).  Numeric fields are rationals, nullable /
optional fields are `Option`s, `start_date` is a day number. -/
structure PTOCategory where
  id : ℕ
  name : String
  accrual_rate : ℚ
  accrual_frequency : AccrualFrequency
  current_balance : ℚ
  starting_balance : ℚ
  start_date : ℕ
  max_balance : Option ℚ := none
  yearly_accrual_cap : Option ℚ := none
  annual_grant_amount : Option ℚ := none
  accrued_ytd : Option ℚ := none
deriving DecidableEq, Repr

/-- `SimulatedCategory` from `ProjectionsPage.tsx`: a category extended with
the per-simulation mutable fields (`simBalance`, `yearlyAccrued`).  The
source uses a spread (`{...cat, simBalance, yearlyAccrued}`); here the
category sits in a `cat` field. -/
structure SimulatedCategory where
  cat : PTOCategory
  simBalance : ℚ
  yearlyAccrued : ℚ
deriving DecidableEq, Repr

/-- `Math.round`: round half toward positive infinity. -/
def jsRound (q : ℚ) : ℤ := ⌊q + 1 / 2⌋

/-- `Number(x.toFixed(2))`: round to the nearest multiple of `1/100`
(`toFixed` resolves ties by picking the larger value, like `Math.round`). -/
def toFixed2 (q : ℚ) : ℚ := (jsRound (q * 100) : ℚ) / 100

/-- One data point of the chart series: the simulated day and, per category
(in category order), the pair `(cat.name, Number(cat.simBalance.toFixed(2)))`
stored on the data point.  The `'MMM d'` display label is presentation of
`fullDate` and is not modelled separately. -/
structure DataPoint where
  fullDate : ℕ
  values : List (String × ℚ)
deriving DecidableEq, Repr

/-- One category's update for one simulated day: the body of the
`catStates.forEach` callback in `chartData` (`ProjectionsPage.tsx` lines
60–120).  JS truthiness tests on nullable numeric fields
(`if (cat.yearly_accrual_cap)`, `cat.max_balance && ...`,
`cat.annual_grant_amount && ...`) are `some`-and-nonzero tests. -/
def catDayStep (currentSimDate : ℕ) (c : SimulatedCategory) : SimulatedCategory :=
  -- 1. Check Annual Grant (Jan 1)
  let balance1 : ℚ :=
    match c.cat.annual_grant_amount with
    | some g =>
        if 0 < g then
          if getMonth currentSimDate = 0 ∧ getDate currentSimDate = 1 then
            c.simBalance + g
          else c.simBalance
        else c.simBalance
    | none => c.simBalance
  -- 2. Check Accrual: the frequency switch sets (shouldAccrue, dailyAccrual).
  -- There is no `daily` branch in the source switch, so a daily category
  -- leaves shouldAccrue = false.
  match (match c.cat.accrual_frequency with
    | .weekly =>
        if getDay currentSimDate = 0 then (true, c.cat.accrual_rate) else (false, 0)
    | .biweekly =>
        let diff : ℤ := (currentSimDate : ℤ) - (c.cat.start_date : ℤ)
        if 0 < diff ∧ diff % 14 = 0 then (true, c.cat.accrual_rate) else (false, 0)
    | .monthly =>
        if getDate currentSimDate = 1 then (true, c.cat.accrual_rate) else (false, 0)
    | .annually =>
        if getMonth currentSimDate = 0 ∧ getDate currentSimDate = 1 then
          (true, c.cat.accrual_rate)
        else (false, 0)
    | .daily => ((false : Bool), (0 : ℚ))) with
  | (shouldAccrue, dailyAccrual) =>
  -- 3. Apply Yearly Cap
  match (if shouldAccrue then
      match c.cat.yearly_accrual_cap with
      | some cap =>
          if cap ≠ 0 then
            let remaining := cap - c.yearlyAccrued
            if 0 < remaining then
              let add := min dailyAccrual remaining
              (balance1 + add, c.yearlyAccrued + add)
            else (balance1, c.yearlyAccrued)
          else (balance1 + dailyAccrual, c.yearlyAccrued)
      | none => (balance1 + dailyAccrual, c.yearlyAccrued)
    else (balance1, c.yearlyAccrued)) with
  | (balance2, accrued2) =>
  -- 4. Apply Max Balance Cap
  let balance3 : ℚ :=
    match c.cat.max_balance with
    | some mb => if mb ≠ 0 ∧ mb < balance2 then mb else balance2
    | none => balance2
  { c with simBalance := balance3, yearlyAccrued := accrued2 }

/-- The simulation loop state: the `currentYear` helper variable and the
`catStates` array. -/
structure SimState where
  currentYear : ℕ
  catStates : List SimulatedCategory
deriving DecidableEq, Repr

/-- One iteration of the `while (currentSimDate <= endDate)` loop: reset
`yearlyAccrued` on a year change, step every category, and emit the data
point. -/
def simDay (currentSimDate : ℕ) (st : SimState) : SimState × DataPoint :=
  let st1 :=
    if getFullYear currentSimDate ≠ st.currentYear then
      { currentYear := getFullYear currentSimDate,
        catStates := st.catStates.map fun c => { c with yearlyAccrued := 0 } }
    else st
  let stepped := st1.catStates.map (catDayStep currentSimDate)
  ({ st1 with catStates := stepped },
   { fullDate := currentSimDate,
     values := stepped.map fun c => (c.cat.name, toFixed2 c.simBalance) })

/-- Run the day loop over a list of day numbers, collecting the emitted
data points. -/
def simLoop : SimState → List ℕ → List DataPoint
  | _, [] => []
  | st, d :: ds =>
      let r := simDay d st
      r.2 :: simLoop r.1 ds

/-- Initial simulation state: `currentYear = today.getFullYear()` and, per
category, `simBalance = cat.current_balance`,
`yearlyAccrued = cat.accrued_ytd || 0`. -/
def initState (categories : List PTOCategory) (today : ℕ) : SimState :=
  { currentYear := getFullYear today,
    catStates := categories.map fun cat =>
      { cat := cat, simBalance := cat.current_balance,
        yearlyAccrued := cat.accrued_ytd.getD 0 } }

/-- The day numbers visited by the loop: `today`, `today + 1`, …,
`today + projectionDays` (the `<= endDate` comparison is inclusive). -/
def simDays (today projectionDays : ℕ) : List ℕ :=
  (List.range (projectionDays + 1)).map (today + ·)

/-- The `chartData` computation of `ProjectionsPage.tsx` (lines 28–127) as a
function of its inputs: the fetched categories, the selected
`projectionDays`, and the reference date `today` (`new Date()`). -/
def chartData (categories : List PTOCategory) (projectionDays today : ℕ) : List DataPoint :=
  if categories = [] then []
  else simLoop (initState categories today) (simDays today projectionDays)

/-! ### Projection helpers used only to state theorems -/

/-- The numeric columns of a chart series, point by point. -/
def seriesOf (l : List DataPoint) : List (List ℚ) :=
  l.map fun p => p.values.map Prod.snd

/-- Number of Sundays among the days `today`, `today+1`, …, `today+i`. -/
def sundayCount (today i : ℕ) : ℕ :=
  ((List.range (i + 1)).filter fun j => getDay (today + j) = 0).length

/-- Derived description of how one simulated day updates the
`yearlyAccrued` running total: it depends only on the category
configuration and the incoming total, never on the balance or the annual
grant.  Proven equal to the `yearlyAccrued` component of `catDayStep` in
`catDayStep_yearlyAccrued`. -/
def yaUpdate (currentSimDate : ℕ) (cc : PTOCategory) (ya : ℚ) : ℚ :=
  match (match cc.accrual_frequency with
    | .weekly => if getDay currentSimDate = 0 then (true, cc.accrual_rate) else (false, 0)
    | .biweekly =>
        let diff : ℤ := (currentSimDate : ℤ) - (cc.start_date : ℤ)
        if 0 < diff ∧ diff % 14 = 0 then (true, cc.accrual_rate) else (false, 0)
    | .monthly => if getDate currentSimDate = 1 then (true, cc.accrual_rate) else (false, 0)
    | .annually =>
        if getMonth currentSimDate = 0 ∧ getDate currentSimDate = 1 then (true, cc.accrual_rate)
        else (false, 0)
    | .daily => ((false : Bool), (0 : ℚ))) with
  | (shouldAccrue, dailyAccrual) =>
    if shouldAccrue then
      match cc.yearly_accrual_cap with
      | some cap =>
          if cap ≠ 0 then
            if 0 < cap - ya then ya + min dailyAccrual (cap - ya) else ya
          else ya
      | none => ya
    else ya

/-! ## Concrete categories used by witnesses and counterexamples.
2024-01-01 (a Monday) is day 19723; 2024-01-07 (a Sunday) is day 19729. -/

/-- A `daily` category: rate 1 hour/day from 2024-01-01, no caps, no grant. -/
def dailyCat : PTOCategory :=
  { id := 1, name := "Daily", accrual_rate := 1, accrual_frequency := .daily,
    current_balance := 0, starting_balance := 0, start_date := 19723 }

/-- The weekly category of the spec's test vector: rate 2, start 2024-01-01. -/
def weeklyCat : PTOCategory :=
  { id := 2, name := "Flex", accrual_rate := 2, accrual_frequency := .weekly,
    current_balance := 0, starting_balance := 0, start_date := 19723 }

/-- A weekly category whose `start_date` (2024-02-07, day 19760) lies after
the simulated window. -/
def weeklyFutureStart : PTOCategory :=
  { id := 3, name := "Flex", accrual_rate := 2, accrual_frequency := .weekly,
    current_balance := 0, starting_balance := 0, start_date := 19760 }

/-- The yearly-cap test vector: 10 hours/week under a cap of 15. -/
def capCat : PTOCategory :=
  { id := 4, name := "Cap", accrual_rate := 10, accrual_frequency := .weekly,
    current_balance := 0, starting_balance := 0, start_date := 19723,
    yearly_accrual_cap := some 15 }

/-- A category whose `yearly_accrual_cap` is set to `0`. -/
def capZeroCat : PTOCategory :=
  { id := 5, name := "CapZero", accrual_rate := 10, accrual_frequency := .weekly,
    current_balance := 0, starting_balance := 0, start_date := 19723,
    yearly_accrual_cap := some 0 }

/-- A category whose `max_balance` is set to `0` while its balance is 5. -/
def maxZeroCat : PTOCategory :=
  { id := 6, name := "MaxZero", accrual_rate := 0, accrual_frequency := .daily,
    current_balance := 5, starting_balance := 5, start_date := 19723,
    max_balance := some 0 }

/-- The max-balance test vector: balance 78, cap 80, weekly accrual of 5. -/
def upt78 : PTOCategory :=
  { id := 7, name := "UPT", accrual_rate := 5, accrual_frequency := .weekly,
    current_balance := 78, starting_balance := 78, start_date := 19723,
    max_balance := some 80 }

/-! ## C5 — `max_balance` bounds every emitted value -/

/-- Derived description of how one simulated day updates the balance:
grant, frequency switch, yearly cap, then the max-balance clamp.  Proven
equal to the `simBalance` component of `catDayStep` in
`catDayStep_simBalance`. -/
def balUpdate (currentSimDate : ℕ) (cc : PTOCategory) (bal ya : ℚ) : ℚ :=
  let balance1 : ℚ :=
    match cc.annual_grant_amount with
    | some g =>
        if 0 < g then
          if getMonth currentSimDate = 0 ∧ getDate currentSimDate = 1 then bal + g else bal
        else bal
    | none => bal
  match (match cc.accrual_frequency with
    | .weekly => if getDay currentSimDate = 0 then (true, cc.accrual_rate) else (false, 0)
    | .biweekly =>
        let diff : ℤ := (currentSimDate : ℤ) - (cc.start_date : ℤ)
        if 0 < diff ∧ diff % 14 = 0 then (true, cc.accrual_rate) else (false, 0)
    | .monthly => if getDate currentSimDate = 1 then (true, cc.accrual_rate) else (false, 0)
    | .annually =>
        if getMonth currentSimDate = 0 ∧ getDate currentSimDate = 1 then (true, cc.accrual_rate)
        else (false, 0)
    | .daily => ((false : Bool), (0 : ℚ))) with
  | (shouldAccrue, dailyAccrual) =>
    let balance2 : ℚ :=
      if shouldAccrue then
        match cc.yearly_accrual_cap with
        | some cap =>
            if cap ≠ 0 then
              if 0 < cap - ya then balance1 + min dailyAccrual (cap - ya) else balance1
            else balance1 + dailyAccrual
        | none => balance1 + dailyAccrual
      else balance1
    match cc.max_balance with
    | some mb => if mb ≠ 0 ∧ mb < balance2 then mb else balance2
    | none => balance2

/-! ## JS string/number model for `src/frontend/src/utils/format.ts`

Strings are `List Char`.  JS numbers coming out of string coercion are a
`JSNumber`: an idealised rational or one of the observable special values
`NaN` / `±Infinity`.  `Number(...)` and `parseFloat(...)` follow the
ECMAScript string grammars (whitespace trimming, optional sign, decimal
digits with fraction and exponent, `Infinity`, and for `Number` the
`0x`/`0o`/`0b` radix forms with no sign).  `toLowerCase` is modelled on
ASCII. -/

/-- JS number values produced by string→number coercion. -/
inductive JSNumber where
  | nan
  | posInf
  | negInf
  | val (q : ℚ)
deriving DecidableEq, Repr

/-- The ECMAScript whitespace set (`WhiteSpace ∪ LineTerminator`), which is
both what `String.prototype.trim` removes and what the regex class `\s`
matches. -/
def jsWhitespace (c : Char) : Bool :=
  decide (c.toNat = 32 ∨ (9 ≤ c.toNat ∧ c.toNat ≤ 13) ∨ c.toNat = 160 ∨
    c.toNat = 5760 ∨ (8192 ≤ c.toNat ∧ c.toNat ≤ 8202) ∨ c.toNat = 8232 ∨
    c.toNat = 8233 ∨ c.toNat = 8239 ∨ c.toNat = 8287 ∨ c.toNat = 12288 ∨
    c.toNat = 65279)

/-- The regex class `\d`: the ASCII decimal digits. -/
def jsDigit (c : Char) : Bool := decide (48 ≤ c.toNat ∧ c.toNat ≤ 57)

/-- Numeric value of a decimal digit character. -/
def digitVal (c : Char) : ℕ := c.toNat - 48

/-- Numeric value of a run of decimal digit characters. -/
def digitsVal (l : List Char) : ℕ := l.foldl (fun a c => 10 * a + digitVal c) 0

/-- `String.prototype.toLowerCase`, on the ASCII range (non-ASCII letters
are left unchanged by this model). -/
def jsToLowerChar (c : Char) : Char :=
  if 65 ≤ c.toNat ∧ c.toNat ≤ 90 then Char.ofNat (c.toNat + 32) else c

/-- `String.prototype.toLowerCase` over a string. -/
def jsToLower (s : List Char) : List Char := s.map jsToLowerChar

/-- `String.prototype.trim`: strip `jsWhitespace` from both ends. -/
def jsTrim (s : List Char) : List Char :=
  ((s.dropWhile jsWhitespace).reverse.dropWhile jsWhitespace).reverse

/-- Value of a digit in radix up to 16, if any. -/
def radixDigitVal (c : Char) : Option ℕ :=
  if 48 ≤ c.toNat ∧ c.toNat ≤ 57 then some (c.toNat - 48)
  else if 97 ≤ c.toNat ∧ c.toNat ≤ 102 then some (c.toNat - 87)
  else if 65 ≤ c.toNat ∧ c.toNat ≤ 70 then some (c.toNat - 55)
  else none

/-- Parse a nonempty all-digits string in base `b`, else fail. -/
def parseRadixDigits (b : ℕ) (l : List Char) : Option ℕ :=
  if l = [] then none
  else
    l.foldl (fun acc c =>
      match acc, radixDigitVal c with
      | some a, some v => if v < b then some (b * a + v) else none
      | _, _ => none) (some 0)

/-- An optional `ExponentPart` (`e`/`E`, optional sign, digits); when the
digits are missing the exponent is not consumed (`parseFloat("1e") = 1`). -/
def parseExponent (r : List Char) : ℤ × List Char :=
  if r.head? = some 'e' ∨ r.head? = some 'E' then
    let r1 := r.tail
    let esign : ℤ := if r1.head? = some '-' then -1 else 1
    let r2 := if r1.head? = some '-' ∨ r1.head? = some '+' then r1.tail else r1
    let ds := r2.takeWhile jsDigit
    if ds = [] then (0, r) else (esign * (digitsVal ds : ℤ), r2.dropWhile jsDigit)
  else (0, r)

/-- The ECMAScript `StrUnsignedDecimalLiteral` without the `Infinity`
alternative: `digits [. digits] [exp]` or `. digits [exp]`, longest
prefix; returns the value and the unconsumed remainder. -/
def parseUnsignedDecimal (s : List Char) : Option (ℚ × List Char) :=
  let I := s.takeWhile jsDigit
  let r1 := s.dropWhile jsDigit
  if I = [] then
    if r1.head? = some '.' then
      let F := r1.tail.takeWhile jsDigit
      if F = [] then none
      else
        let er := parseExponent (r1.tail.dropWhile jsDigit)
        some ((digitsVal F : ℚ) / 10 ^ F.length * (10 : ℚ) ^ er.1, er.2)
    else none
  else
    if r1.head? = some '.' then
      let F := r1.tail.takeWhile jsDigit
      let er := parseExponent (r1.tail.dropWhile jsDigit)
      some (((digitsVal I : ℚ) + (digitsVal F : ℚ) / 10 ^ F.length) * (10 : ℚ) ^ er.1,
        er.2)
    else
      let er := parseExponent r1
      some ((digitsVal I : ℚ) * (10 : ℚ) ^ er.1, er.2)

/-- `Number(s)` for a string argument: trim; empty → `0`; radix literals
(no sign); otherwise optional sign and `Infinity` or a decimal literal
consuming the entire string. -/
def jsNumber (s : List Char) : JSNumber :=
  let t := jsTrim s
  if t = [] then .val 0
  else if t.take 2 = ['0', 'x'] ∨ t.take 2 = ['0', 'X'] then
    match parseRadixDigits 16 (t.drop 2) with
    | some n => .val n
    | none => .nan
  else if t.take 2 = ['0', 'o'] ∨ t.take 2 = ['0', 'O'] then
    match parseRadixDigits 8 (t.drop 2) with
    | some n => .val n
    | none => .nan
  else if t.take 2 = ['0', 'b'] ∨ t.take 2 = ['0', 'B'] then
    match parseRadixDigits 2 (t.drop 2) with
    | some n => .val n
    | none => .nan
  else
    let sign : ℚ := if t.head? = some '-' then -1 else 1
    let body := if t.head? = some '-' ∨ t.head? = some '+' then t.tail else t
    if body = ['I', 'n', 'f', 'i', 'n', 'i', 't', 'y'] then
      if t.head? = some '-' then .negInf else .posInf
    else
      match parseUnsignedDecimal body with
      | some qr => if qr.2 = [] then .val (sign * qr.1) else .nan
      | none => .nan

/-- `parseFloat(s)`: strip leading whitespace, optional sign, then the
longest `Infinity`-or-decimal prefix; `NaN` when there is none. -/
def jsParseFloat (s : List Char) : JSNumber :=
  let t := s.dropWhile jsWhitespace
  let sign : ℚ := if t.head? = some '-' then -1 else 1
  let body := if t.head? = some '-' ∨ t.head? = some '+' then t.tail else t
  if body.take 8 = ['I', 'n', 'f', 'i', 'n', 'i', 't', 'y'] then
    if t.head? = some '-' then .negInf else .posInf
  else
    match parseUnsignedDecimal body with
    | some qr => .val (sign * qr.1)
    | none => .nan

/-- Digit-accumulator loop for decimal rendering; the fuel argument makes
the recursion structural (any fuel above the input suffices). -/
def natDigitsAux : ℕ → ℕ → List Char → List Char
  | 0, _, acc => acc
  | fuel + 1, n, acc =>
      if n < 10 then Char.ofNat (48 + n) :: acc
      else natDigitsAux fuel (n / 10) (Char.ofNat (48 + n % 10) :: acc)

/-- Decimal rendering of a natural number, as the template literal
`${hours}` produces for a nonnegative integer JS number. -/
def natDigits (n : ℕ) : List Char := natDigitsAux (n + 1) n []

/-- `formatHours` from `format.ts`: split `|x|` into whole hours and
rounded minutes, print `"{H}h {M}m"` omitting zero components (with the
special case `"0h"` before the sign is applied), trim, and prefix `-`
for negative input. -/
def formatHours (decimalHours : ℚ) : List Char :=
  let isNegative := decimalHours < 0
  let absoluteHours := |decimalHours|
  let hours : ℕ := (⌊absoluteHours⌋).toNat
  let minutes : ℕ := (jsRound ((absoluteHours - (hours : ℚ)) * 60)).toNat
  if hours = 0 ∧ minutes = 0 then ['0', 'h']
  else
    let result1 : List Char := if 0 < hours then natDigits hours ++ ['h'] else []
    let result2 : List Char :=
      if 0 < minutes then result1 ++ ' ' :: (natDigits minutes ++ ['m']) else result1
    (if isNegative then ['-'] else []) ++ jsTrim result2

/-- One attempt of the regex `/(\d+(\.\d+)?)\s*h/` (resp. `…m`) anchored at
the start of `s`: greedy digits, optional greedy fraction, `\s*`, then the
literal target character; returns the numeric value of capture group 1
(`parseFloat` is exact on `\d+(\.\d+)?`).  For this pattern maximal munch
is equivalent to the backtracking regex: giving back digits of `\d+` or of
the fraction leaves a digit in next position, which can match neither `\.`
nor `\s` nor the target letter, and dropping a present fraction leaves
`.`, which likewise cannot match. -/
def tryNumAt (target : Char) (s : List Char) : Option ℚ :=
  let I := s.takeWhile jsDigit
  if I = [] then none
  else
    let r1 := s.dropWhile jsDigit
    let fr : ℚ × List Char :=
      if r1.head? = some '.' then
        let F := r1.tail.takeWhile jsDigit
        if F = [] then ((digitsVal I : ℚ), r1)
        else ((digitsVal I : ℚ) + (digitsVal F : ℚ) / 10 ^ F.length,
          r1.tail.dropWhile jsDigit)
      else ((digitsVal I : ℚ), r1)
    if (fr.2.dropWhile jsWhitespace).head? = some target then some fr.1 else none

/-- Leftmost match of `/(\d+(\.\d+)?)\s*h/` (resp. `…m`): try each start
position left to right. -/
def matchNumBefore (target : Char) : List Char → Option ℚ
  | [] => none
  | c :: r =>
      match tryNumAt target (c :: r) with
      | some q => some q
      | none => matchNumBefore target r

/-- `String.prototype.split` with a single-character separator. -/
def splitOnChar (sep : Char) : List Char → List (List Char)
  | [] => [[]]
  | c :: r =>
      if c = sep then [] :: splitOnChar sep r
      else
        match splitOnChar sep r with
        | [] => [[c]]
        | p :: ps => (c :: p) :: ps

/-- JS `+` on coerced numbers. -/
def jsAdd : JSNumber → JSNumber → JSNumber
  | .nan, _ => .nan
  | _, .nan => .nan
  | .posInf, .negInf => .nan
  | .negInf, .posInf => .nan
  | .posInf, _ => .posInf
  | _, .posInf => .posInf
  | .negInf, _ => .negInf
  | _, .negInf => .negInf
  | .val a, .val b => .val (a + b)

/-- JS `m / 60`. -/
def jsDiv60 : JSNumber → JSNumber
  | .nan => .nan
  | .posInf => .posInf
  | .negInf => .negInf
  | .val q => .val (q / 60)

/-- `parseDuration` from `format.ts`.  `none` is JS `null`; the `!input`
guard is true exactly for the empty string; the decimal check returns
`parseFloat(cleanInput)` whenever `Number(cleanInput)` is not `NaN`; a
colon string falls through to the `h`/`m` section when either side of the
colon is `NaN`; the `h`/`m` section sums the two regex captures and fails
only when neither matched. -/
def parseDuration (input : List Char) : Option JSNumber :=
  if input = [] then none
  else
    let cleanInput := jsTrim (jsToLower input)
    if jsNumber cleanInput ≠ JSNumber.nan then some (jsParseFloat cleanInput)
    else
      let colonResult : Option JSNumber :=
        if ':' ∈ cleanInput then
          let parts := splitOnChar ':' cleanInput
          let h := jsNumber (parts.getD 0 [])
          let m := jsNumber (parts.getD 1 [])
          if h ≠ JSNumber.nan ∧ m ≠ JSNumber.nan then some (jsAdd h (jsDiv60 m))
          else none
        else none
      match colonResult with
      | some r => some r
      | none =>
        let hoursMatch := matchNumBefore 'h' cleanInput
        let minutesMatch := matchNumBefore 'm' cleanInput
        match hoursMatch, minutesMatch with
        | none, none => none
        | _, _ =>
            some (JSNumber.val (hoursMatch.getD 0 + (minutesMatch.getD 0) / 60))

/-! ## Accepted duration forms (spec-side predicates) -/

/-- Spec-side: a plain decimal digit string, optionally with a fractional
part (`"1"`, `"1.5"`). -/
def PlainDecimalForm (t : List Char) : Prop :=
  ∃ D, D ≠ [] ∧ (∀ c ∈ D, jsDigit c = true) ∧
    (t = D ∨ ∃ F, F ≠ [] ∧ (∀ c ∈ F, jsDigit c = true) ∧ t = D ++ '.' :: F)

/-- Spec-side: the colon form `H:MM` with nonempty digit-string parts. -/
def ColonForm (t : List Char) : Prop :=
  ∃ H M, H ≠ [] ∧ M ≠ [] ∧ (∀ c ∈ H, jsDigit c = true) ∧
    (∀ c ∈ M, jsDigit c = true) ∧ t = H ++ ':' :: M

/-- Spec-side: the composite form `<H>h <M>m` with digit-string parts,
either part optional but not both absent, and internal whitespace between
the two components. -/
def CompositeForm (t : List Char) : Prop :=
  (∃ D, D ≠ [] ∧ (∀ c ∈ D, jsDigit c = true) ∧ t = D ++ ['h']) ∨
  (∃ M, M ≠ [] ∧ (∀ c ∈ M, jsDigit c = true) ∧ t = M ++ ['m']) ∨
  (∃ D W M, D ≠ [] ∧ M ≠ [] ∧ (∀ c ∈ D, jsDigit c = true) ∧
    (∀ c ∈ W, jsWhitespace c = true) ∧ (∀ c ∈ M, jsDigit c = true) ∧
    t = D ++ 'h' :: (W ++ (M ++ ['m'])))

/-- Spec-side: the union of the accepted duration forms, stated over the
canonicalized (lowercased and trimmed) input. -/
def AcceptedDurationForm (t : List Char) : Prop :=
  PlainDecimalForm t ∨ ColonForm t ∨ CompositeForm t

/-! ### Sanity examples for the calendar (2024-01-01 is day 19723) -/

example : getFullYear 19723 = 2024 ∧ getMonth 19723 = 0 ∧ getDate 19723 = 1 := by decide

example : getDay 19723 = 1 ∧ getDay 19729 = 0 := by decide

example : getFullYear 19722 = 2023 ∧ getMonth 19722 = 11 ∧ getDate 19722 = 31 := by decide

/-! ## Helper lemmas about the simulation step -/

/-- `catDayStep` never changes the category configuration itself. -/
theorem catDayStep_cat (d : ℕ) (c : SimulatedCategory) : (catDayStep d c).cat = c.cat := rfl

/-- Decimal digits are not JS whitespace, `toFixed2` is monotone. -/
theorem toFixed2_mono {a b : ℚ} (h : a ≤ b) : toFixed2 a ≤ toFixed2 b := by
  unfold toFixed2 jsRound
  have hfl : (⌊a * 100 + 1 / 2⌋ : ℤ) ≤ ⌊b * 100 + 1 / 2⌋ := by
    apply Int.floor_le_floor
    nlinarith
  have hq : ((⌊a * 100 + 1 / 2⌋ : ℤ) : ℚ) ≤ ((⌊b * 100 + 1 / 2⌋ : ℤ) : ℚ) := by
    exact_mod_cast hfl
  linarith

/-- The `yearlyAccrued` component of a simulated day is `yaUpdate`. -/
theorem catDayStep_yearlyAccrued (d : ℕ) (cc : PTOCategory) (bal ya : ℚ) :
    (catDayStep d ⟨cc, bal, ya⟩).yearlyAccrued = yaUpdate d cc ya := by
  unfold catDayStep yaUpdate
  rcases hx : (match cc.accrual_frequency with
    | .weekly => if getDay d = 0 then (true, cc.accrual_rate) else (false, 0)
    | .biweekly =>
        let diff : ℤ := (d : ℤ) - (cc.start_date : ℤ)
        if 0 < diff ∧ diff % 14 = 0 then (true, cc.accrual_rate) else (false, 0)
    | .monthly => if getDate d = 1 then (true, cc.accrual_rate) else (false, 0)
    | .annually =>
        if getMonth d = 0 ∧ getDate d = 1 then (true, cc.accrual_rate)
        else (false, 0)
    | .daily => ((false : Bool), (0 : ℚ))) with ⟨s, a⟩
  rw [hx]
  cases s
  · rfl
  · cases hc : cc.yearly_accrual_cap
    · rfl
    · simp only
      split_ifs <;> rfl

/-! ## C8 — determinism of the projection -/

/-- C8: for a fixed tuple of inputs (category configurations, projection
length, reference `today` date), two runs of the projection simulation
produce identical per-day balance series.  The embedded `chartData` is a
pure function of exactly these inputs — the `catStates` array the source
mutates is created afresh inside each call — so equal inputs give equal
output. -/
theorem chartData_deterministic (cats₁ cats₂ : List PTOCategory)
    (days₁ days₂ today₁ today₂ : ℕ)
    (hc : cats₁ = cats₂) (hd : days₁ = days₂) (ht : today₁ = today₂) :
    chartData cats₁ days₁ today₁ = chartData cats₂ days₂ today₂ := by
  rw [hc, hd, ht]

/-- Witness for C8 at a concrete input. -/
theorem chartData_deterministic_witness :
    chartData [weeklyCat] 20 19723 = chartData [weeklyCat] 20 19723 :=
  chartData_deterministic [weeklyCat] [weeklyCat] 20 20 19723 19723 rfl rfl rfl

/-! ## C2 — `daily` frequency is not handled by the simulation -/

/-- C2 (code bug): the frequency switch in `chartData` has no `daily` case,
so a `daily` category never receives a periodic accrual event.  First
conjunct: simulated from 2024-01-01 for three further days, `dailyCat`
(rate 1/day) emits a flat series of zeros, while the claim requires one
1-hour event per calendar day.  Second conjunct: in general, for a daily
category with no grant and no max clamp, a simulated day changes nothing. -/
theorem daily_category_never_accrues :
    seriesOf (chartData [dailyCat] 3 19723) = [[0], [0], [0], [0]] ∧
    (∀ (c : SimulatedCategory) (d : ℕ),
      c.cat.accrual_frequency = .daily →
      c.cat.annual_grant_amount = none →
      c.cat.max_balance = none →
      catDayStep d c = c) := by
  constructor
  · with_unfolding_all rfl
  · intro c d hf hg hm
    simp [catDayStep, hf, hg, hm]

/-- Witness for C2's second conjunct at a concrete state and day. -/
theorem daily_category_never_accrues_witness :
    catDayStep 19724 ⟨dailyCat, 7, 3⟩ = ⟨dailyCat, 7, 3⟩ :=
  daily_category_never_accrues.2 ⟨dailyCat, 7, 3⟩ 19724 rfl rfl rfl

/-! ## C7 — the yearly running total resets on a year change -/

/-- C7: at the first simulated day whose calendar year differs from the
year carried in the loop state, every category's `yearlyAccrued` running
total is reset to zero before any event of that day is applied: the
outcome of `simDay` is independent of the carried-over `yearlyAccrued`
values (replacing them by anything gives the same result), so no periodic
accrual applied in a new year is limited by hours accrued in the previous
year. -/
theorem yearlyAccrued_reset_on_year_change (d y : ℕ) (cats : List SimulatedCategory)
    (f : SimulatedCategory → ℚ) (h : getFullYear d ≠ y) :
    simDay d ⟨y, cats⟩ =
      simDay d ⟨y, cats.map fun c => { c with yearlyAccrued := f c }⟩ := by
  have hmap :
      ((cats.map fun c => { c with yearlyAccrued := f c }).map
        fun c => { c with yearlyAccrued := (0 : ℚ) }) =
      cats.map fun c => { c with yearlyAccrued := (0 : ℚ) } := by
    rw [List.map_map]; rfl
  simp only [simDay, SimState.currentYear, SimState.catStates, if_pos h, hmap]

/-- Witness for C7: on 2024-01-01 (day 19723) with carried year 2023,
overwriting the carried running totals (here with `99`) changes nothing. -/
theorem yearlyAccrued_reset_on_year_change_witness :
    simDay 19723 ⟨2023, [⟨capCat, 0, 12⟩]⟩ =
      simDay 19723 ⟨2023, [⟨capCat, 0, 99⟩]⟩ := by
  have h : getFullYear 19723 ≠ 2023 := by with_unfolding_all decide
  have := yearlyAccrued_reset_on_year_change 19723 2023 [⟨capCat, 0, 12⟩]
    (fun _ => 99) h
  simpa using this

/-! ## C4 — the annual grant is independent of the yearly cap -/

set_option maxHeartbeats 1600000 in
set_option maxRecDepth 8000 in
/-- C4: for a category with `annual_grant_amount` set and positive, a
simulated day (i) on January 1 applies the grant before the periodic
accrual — the day behaves exactly like the grant-free category started
from `simBalance + g`; (ii) on any other day ignores the grant; and
(iii) never counts the grant against `yearly_accrual_cap`: the
`yearlyAccrued` running total evolves exactly as for the grant-free
category, so the grant consumes no headroom.  The day loop applies
`catDayStep` to every simulated day, hence to every January 1 in range. -/
theorem annual_grant_independent (c : SimulatedCategory) (d : ℕ) (g : ℚ)
    (hg : c.cat.annual_grant_amount = some g) (hpos : 0 < g) :
    ((getMonth d = 0 ∧ getDate d = 1) →
      (catDayStep d c).simBalance =
        (catDayStep d { c with cat := { c.cat with annual_grant_amount := none },
                               simBalance := c.simBalance + g }).simBalance) ∧
    (¬ (getMonth d = 0 ∧ getDate d = 1) →
      (catDayStep d c).simBalance =
        (catDayStep d { c with cat := { c.cat with annual_grant_amount := none } }).simBalance) ∧
    ((catDayStep d c).yearlyAccrued =
      (catDayStep d { c with cat := { c.cat with annual_grant_amount := none },
                             simBalance := c.simBalance + g }).yearlyAccrued) := by
  obtain ⟨cc, bal, ya⟩ := c
  simp only at hg
  refine ⟨?_, ?_, ?_⟩
  · intro h
    simp only [catDayStep, hg, hpos, h.1, h.2, and_self, ite_true, if_true]
  · intro h
    simp only [catDayStep, hg, hpos, h, and_self, ite_true, if_true, ite_false, if_false]
  · rw [catDayStep_yearlyAccrued, catDayStep_yearlyAccrued]
    rfl

/-- Witness for C4 on 2024-01-01 (day 19723). -/
theorem annual_grant_independent_witness :
    (getMonth 19723 = 0 ∧ getDate 19723 = 1) ∧
    (catDayStep 19723 ⟨{ capCat with annual_grant_amount := some 40 }, 3, 9⟩).simBalance =
      (catDayStep 19723 ⟨capCat, 3 + 40, 9⟩).simBalance ∧
    (catDayStep 19723 ⟨{ capCat with annual_grant_amount := some 40 }, 3, 9⟩).yearlyAccrued =
      (catDayStep 19723 ⟨capCat, 3 + 40, 9⟩).yearlyAccrued := by
  have hjan : getMonth 19723 = 0 ∧ getDate 19723 = 1 := by
    with_unfolding_all decide
  have h := annual_grant_independent
    ⟨{ capCat with annual_grant_amount := some 40 }, 3, 9⟩ 19723 40 rfl (by norm_num)
  exact ⟨hjan, h.1 hjan, h.2.2⟩

/-! ## C3 — yearly cap clamps periodic accrual to the remaining headroom -/

/-- C3 counterexample: `yearly_accrual_cap` set to `0` is falsy in JS, so
the cap branch is skipped and the full accrual is applied.  On Sunday
2024-01-07 (day 19729) the category `capZeroCat` (rate 10, cap 0) emits
10, although the claim requires the addition to be clamped to the
remaining headroom, which is 0. -/
theorem yearly_cap_zero_not_clamped :
    capZeroCat.yearly_accrual_cap = some 0 ∧
    seriesOf (chartData [capZeroCat] 0 19729) = [[10]] := by
  constructor
  · rfl
  · with_unfolding_all rfl

/-- C3 (amended): for a category whose `yearly_accrual_cap` is set and
nonzero (JS truthiness) and whose accrual rate is nonnegative, a weekly
accrual event adds exactly `min rate (max (cap - yearlyAccrued) 0)` to
both the balance and the running total: the full amount within headroom,
the partial remainder when the full amount would exceed the cap, and zero
once the cap is reached.  Moreover the spec's concrete vector holds:
three weekly events of 10 under a cap of 15 accrue 10, then 5, then 0
(series simulated from Sunday 2024-01-07, day 19729). -/
theorem yearly_cap_clamps_to_headroom :
    (∀ (c : SimulatedCategory) (d : ℕ) (cap : ℚ),
      c.cat.yearly_accrual_cap = some cap → cap ≠ 0 →
      0 ≤ c.cat.accrual_rate →
      c.cat.annual_grant_amount = none → c.cat.max_balance = none →
      c.cat.accrual_frequency = .weekly → getDay d = 0 →
      (catDayStep d c).simBalance =
        c.simBalance + min c.cat.accrual_rate (max (cap - c.yearlyAccrued) 0) ∧
      (catDayStep d c).yearlyAccrued =
        c.yearlyAccrued + min c.cat.accrual_rate (max (cap - c.yearlyAccrued) 0)) ∧
    seriesOf (chartData [capCat] 14 19729) =
      [[10], [10], [10], [10], [10], [10], [10],
       [15], [15], [15], [15], [15], [15], [15], [15]] := by
  constructor
  · intro c d cap hc hcap hrate hg hm hf hsun
    obtain ⟨cc, bal, ya⟩ := c
    simp only at hc hg hm hf hrate
    simp only [catDayStep, hc, hcap, hg, hm, hf, hsun, ite_true, if_true, ne_eq,
      not_false_iff]
    split_ifs with hrem
    · rw [max_eq_left (le_of_lt hrem)]
      exact ⟨rfl, rfl⟩
    · rw [max_eq_right (by linarith [not_lt.mp hrem])]
      rw [min_eq_right hrate]
      constructor <;> ring
  · with_unfolding_all rfl

/-- Witness for C3's clamp property at the second weekly event of the
spec's vector: running total 10 under cap 15 receives the partial
accrual 5, not 10 and not 0. -/
theorem yearly_cap_clamps_to_headroom_witness :
    capCat.yearly_accrual_cap = some 15 ∧ (15 : ℚ) ≠ 0 ∧ getDay 19736 = 0 ∧
    (catDayStep 19736 ⟨capCat, 10, 10⟩).simBalance = 10 + 5 ∧
    (catDayStep 19736 ⟨capCat, 10, 10⟩).yearlyAccrued = 10 + 5 := by
  have hsun : getDay 19736 = 0 := by with_unfolding_all decide
  have h := yearly_cap_clamps_to_headroom.1 ⟨capCat, 10, 10⟩ 19736 15
    rfl (by norm_num) (by norm_num [capCat]) rfl rfl rfl hsun
  refine ⟨rfl, by norm_num, hsun, ?_, ?_⟩
  · rw [h.1]; norm_num [capCat]
  · rw [h.2]; norm_num [capCat]

/-- The `simBalance` component of a simulated day is `balUpdate`. -/
theorem catDayStep_simBalance (d : ℕ) (cc : PTOCategory) (bal ya : ℚ) :
    (catDayStep d ⟨cc, bal, ya⟩).simBalance = balUpdate d cc bal ya := by
  unfold catDayStep balUpdate
  rcases hx : (match cc.accrual_frequency with
    | .weekly => if getDay d = 0 then (true, cc.accrual_rate) else (false, 0)
    | .biweekly =>
        let diff : ℤ := (d : ℤ) - (cc.start_date : ℤ)
        if 0 < diff ∧ diff % 14 = 0 then (true, cc.accrual_rate) else (false, 0)
    | .monthly => if getDate d = 1 then (true, cc.accrual_rate) else (false, 0)
    | .annually =>
        if getMonth d = 0 ∧ getDate d = 1 then (true, cc.accrual_rate)
        else (false, 0)
    | .daily => ((false : Bool), (0 : ℚ))) with ⟨s, a⟩
  rw [hx]
  cases s
  · rfl
  · cases hc : cc.yearly_accrual_cap
    · rfl
    · simp only
      split_ifs <;> rfl

/-- The step-4 clamp, in isolation. -/
theorem clamp_le (M B : ℚ) (hM : M ≠ 0) :
    (if M ≠ 0 ∧ M < B then M else B) ≤ M := by
  split_ifs with h
  · exact le_rfl
  · exact le_of_not_lt fun hlt => h ⟨hM, hlt⟩

/-- After step 4 of a simulated day, the balance of a category whose
`max_balance` is set and nonzero is at most `max_balance`. -/
theorem catDayStep_simBalance_le (d : ℕ) (c : SimulatedCategory) (M : ℚ)
    (hm : c.cat.max_balance = some M) (hM : M ≠ 0) :
    (catDayStep d c).simBalance ≤ M := by
  obtain ⟨cc, bal, ya⟩ := c
  simp only at hm
  rw [catDayStep_simBalance]
  unfold balUpdate
  rcases hx : (match cc.accrual_frequency with
    | .weekly => if getDay d = 0 then (true, cc.accrual_rate) else (false, 0)
    | .biweekly =>
        let diff : ℤ := (d : ℤ) - (cc.start_date : ℤ)
        if 0 < diff ∧ diff % 14 = 0 then (true, cc.accrual_rate) else (false, 0)
    | .monthly => if getDate d = 1 then (true, cc.accrual_rate) else (false, 0)
    | .annually =>
        if getMonth d = 0 ∧ getDate d = 1 then (true, cc.accrual_rate)
        else (false, 0)
    | .daily => ((false : Bool), (0 : ℚ))) with ⟨s, a⟩
  rw [hx]
  simp only [hm]
  exact clamp_le M _ hM

/-- The category configurations carried through `simDay`. -/
theorem simDay_catStates (d : ℕ) (st : SimState) :
    (simDay d st).1.catStates =
      (if getFullYear d ≠ st.currentYear then
        st.catStates.map fun c => { c with yearlyAccrued := 0 }
      else st.catStates).map (catDayStep d) := by
  unfold simDay; split_ifs <;> rfl

/-- The values emitted by `simDay` come from the just-stepped categories. -/
theorem simDay_values (d : ℕ) (st : SimState) :
    (simDay d st).2.values =
      ((if getFullYear d ≠ st.currentYear then
        st.catStates.map fun c => { c with yearlyAccrued := 0 }
      else st.catStates).map (catDayStep d)).map
        fun c => (c.cat.name, toFixed2 c.simBalance) := by
  unfold simDay; split_ifs <;> rfl

/-- Every value the loop emits at column `i` is bounded by `toFixed2 M`
when the `i`-th carried category has `max_balance = some M ≠ 0`. -/
theorem simLoop_values_le (M : ℚ) (hM : M ≠ 0) (i : ℕ) :
    ∀ (ds : List ℕ) (st : SimState),
      (∀ sc, st.catStates[i]? = some sc → sc.cat.max_balance = some M) →
      ∀ p ∈ simLoop st ds, ∀ nv : String × ℚ, p.values[i]? = some nv →
        nv.2 ≤ toFixed2 M := by
  intro ds
  induction ds with
  | nil => intro st _ p hp; simp [simLoop] at hp
  | cons d ds ih =>
    intro st hinv p hp nv hnv
    have hpre : ∀ sc,
        (if getFullYear d ≠ st.currentYear then
          st.catStates.map fun c => { c with yearlyAccrued := 0 }
        else st.catStates)[i]? = some sc → sc.cat.max_balance = some M := by
      intro sc hsc
      split_ifs at hsc with hy
      · rw [List.getElem?_map] at hsc
        rcases h0 : st.catStates[i]? with _ | sc0
        · rw [h0] at hsc; simp at hsc
        · rw [h0] at hsc
          simp only [Option.map_some'] at hsc
          cases hsc
          exact hinv sc0 h0
      · exact hinv sc hsc
    have hstep : ∀ sc,
        (simDay d st).1.catStates[i]? = some sc → sc.cat.max_balance = some M := by
      intro sc hsc
      rw [simDay_catStates, List.getElem?_map] at hsc
      rcases h0 : (if getFullYear d ≠ st.currentYear then
          st.catStates.map fun c => { c with yearlyAccrued := 0 }
        else st.catStates)[i]? with _ | sc1
      · rw [h0] at hsc; simp at hsc
      · rw [h0] at hsc
        simp only [Option.map_some'] at hsc
        cases hsc
        exact hpre sc1 h0
    rw [simLoop] at hp
    simp only [List.mem_cons] at hp
    rcases hp with hp | hp
    · subst hp
      rw [simDay_values, List.getElem?_map, List.getElem?_map] at hnv
      rcases h1 : (if getFullYear d ≠ st.currentYear then
          st.catStates.map fun c => { c with yearlyAccrued := 0 }
        else st.catStates)[i]? with _ | sc1
      · rw [h1] at hnv; simp at hnv
      · rw [h1] at hnv
        simp only [Option.map_some'] at hnv
        cases hnv
        have hmax : sc1.cat.max_balance = some M := hpre sc1 h1
        exact toFixed2_mono (catDayStep_simBalance_le d sc1 M hmax hM)
    · exact ih (simDay d st).1 hstep p hp nv hnv

/-- C5 counterexample: `max_balance` set to `0` is falsy in JS, so the
clamp is skipped: `maxZeroCat` (balance 5, `max_balance = some 0`) emits
5, above its max balance. -/
theorem max_balance_zero_not_clamped :
    maxZeroCat.max_balance = some 0 ∧
    seriesOf (chartData [maxZeroCat] 0 19723) = [[5]] := by
  constructor
  · rfl
  · with_unfolding_all rfl

/-- C5 (amended): for every category whose `max_balance` is set and
nonzero, the balance is clamped to `max_balance` at the end of each
simulated day, so every per-day value the simulation emits for that
category is at most `max_balance` rounded to two decimals (the emitted
values being `toFixed(2)`-rounded).  The spec's vector holds: balance 78
under `max_balance = 80` receiving an accrual of 5 emits 80, not 83. -/
theorem max_balance_bounds_series :
    (∀ (cats : List PTOCategory) (days today i : ℕ) (c : PTOCategory) (M : ℚ),
      cats[i]? = some c → c.max_balance = some M → M ≠ 0 →
      ∀ p ∈ chartData cats days today, ∀ nv : String × ℚ,
        p.values[i]? = some nv → nv.2 ≤ toFixed2 M) ∧
    seriesOf (chartData [upt78] 0 19729) = [[80]] := by
  constructor
  · intro cats days today i c M hc hm hM p hp nv hnv
    by_cases hcs : cats = []
    · rw [chartData, if_pos hcs] at hp
      simp at hp
    · rw [chartData, if_neg hcs] at hp
      refine simLoop_values_le M hM i (simDays today days) (initState cats today)
        ?_ p hp nv hnv
      intro sc hsc
      simp only [initState, List.getElem?_map, hc, Option.map_some'] at hsc
      cases hsc
      exact hm
  · with_unfolding_all rfl

/-- Witness for C5's bound on the spec's concrete vector: balance 78 under
`max_balance = 80` receiving a weekly accrual of 5 on Sunday 2024-01-07
emits 80 ≤ 80. -/
theorem max_balance_bounds_series_witness :
    [upt78][0]? = some upt78 ∧ upt78.max_balance = some 80 ∧ (80 : ℚ) ≠ 0 ∧
    (⟨19729, [("UPT", 80)]⟩ : DataPoint) ∈ chartData [upt78] 0 19729 ∧
    (("UPT", (80 : ℚ))).2 ≤ toFixed2 80 := by
  have hser : chartData [upt78] 0 19729 = [⟨19729, [("UPT", 80)]⟩] := by
    with_unfolding_all rfl
  have hmem : (⟨19729, [("UPT", 80)]⟩ : DataPoint) ∈ chartData [upt78] 0 19729 := by
    rw [hser]; exact List.mem_singleton.mpr rfl
  exact ⟨rfl, rfl, by norm_num, hmem,
    max_balance_bounds_series.1 [upt78] 0 19729 0 upt78 80 rfl rfl (by norm_num)
      _ hmem ("UPT", 80) rfl⟩

/-! ## C6 — weekly accrual fires on every Sunday, ignoring `start_date` -/

/-- C6 counterexample: the weekly branch never consults `start_date`.
`weeklyFutureStart` starts on 2024-02-07 (day 19760), yet the simulation
over 2024-01-01..2024-01-07 applies an accrual on Sunday 2024-01-07 (day
19729 < 19760), emitting 2 where the claim requires no event before
`start_date`. -/
theorem weekly_accrues_before_start_date :
    weeklyFutureStart.start_date = 19760 ∧ getDay 19729 = 0 ∧
    seriesOf (chartData [weeklyFutureStart] 6 19723) =
      [[0], [0], [0], [0], [0], [0], [2]] := by
  refine ⟨rfl, by with_unfolding_all decide, ?_⟩
  with_unfolding_all rfl

/-- C6 (amended): for a weekly category with no grant and no caps, each
simulated day adds `accrual_rate` to the balance exactly when the day is
a Sunday (`getDay = 0`) and nothing otherwise, regardless of
`start_date`; and the spec's concrete vector holds with the simulation
started on the start date: rate 2 from Monday 2024-01-01 (day 19723)
through 2024-01-21 applies exactly 3 events (the three Sundays) and ends
at starting balance + 6. -/
theorem weekly_accrues_every_sunday :
    (∀ (c : SimulatedCategory) (d : ℕ),
      c.cat.accrual_frequency = .weekly → c.cat.annual_grant_amount = none →
      c.cat.yearly_accrual_cap = none → c.cat.max_balance = none →
      (catDayStep d c).simBalance =
        c.simBalance + (if getDay d = 0 then c.cat.accrual_rate else 0)) ∧
    seriesOf (chartData [weeklyCat] 20 19723) =
      [[0], [0], [0], [0], [0], [0], [2], [2], [2], [2], [2], [2], [2],
       [4], [4], [4], [4], [4], [4], [4], [6]] := by
  constructor
  · intro c d hf hg hc hm
    obtain ⟨cc, bal, ya⟩ := c
    simp only at hf hg hc hm
    rw [catDayStep_simBalance]
    unfold balUpdate
    simp only [hf, hg, hc, hm]
    by_cases hsun : getDay d = 0
    · simp [hsun]
    · simp [hsun]
  · with_unfolding_all rfl

/-- Witness for C6's step property on Sunday 2024-01-07 and on Monday
2024-01-01. -/
theorem weekly_accrues_every_sunday_witness :
    (catDayStep 19729 ⟨weeklyCat, 7, 0⟩).simBalance =
      7 + (if getDay 19729 = 0 then weeklyCat.accrual_rate else 0) ∧
    (catDayStep 19723 ⟨weeklyCat, 7, 0⟩).simBalance =
      7 + (if getDay 19723 = 0 then weeklyCat.accrual_rate else 0) :=
  ⟨weekly_accrues_every_sunday.1 ⟨weeklyCat, 7, 0⟩ 19729 rfl rfl rfl rfl,
   weekly_accrues_every_sunday.1 ⟨weeklyCat, 7, 0⟩ 19723 rfl rfl rfl rfl⟩

/-! ## Character and list helper lemmas -/

/-- `Char.ofNat` round-trips on the ASCII range. -/
theorem toNat_charOfNat (n : ℕ) (h : n < 55296) : (Char.ofNat n).toNat = n := by
  unfold Char.ofNat
  rw [dif_pos (Or.inl h)]
  unfold Char.ofNatAux Char.toNat
  show (BitVec.ofNatLt n _).toNat = n
  exact BitVec.toNat_ofNatLt n _

/-- Decimal digits are not JS whitespace. -/
theorem jsDigit_not_ws (c : Char) (h : jsDigit c = true) : jsWhitespace c = false := by
  simp only [jsDigit, decide_eq_true_eq] at h
  simp only [jsWhitespace, decide_eq_false_iff_not]
  omega

/-- `Char.ofNat (48 + k)` is a digit, for `k < 10`. -/
theorem jsDigit_ofNat (k : ℕ) (hk : k < 10) : jsDigit (Char.ofNat (48 + k)) = true := by
  simp only [jsDigit, decide_eq_true_eq, toNat_charOfNat (48 + k) (by omega)]
  omega

/-- Value of the digit character of `k < 10`. -/
theorem digitVal_ofNat (k : ℕ) (hk : k < 10) : digitVal (Char.ofNat (48 + k)) = k := by
  simp only [digitVal, toNat_charOfNat (48 + k) (by omega)]
  omega

/-- `digitsVal` of a snoc. -/
theorem digitsVal_append_singleton (l : List Char) (c : Char) :
    digitsVal (l ++ [c]) = 10 * digitsVal l + digitVal c := by
  simp [digitsVal, List.foldl_append]

/-- The digit-accumulator loop produces a nonempty digit string of the
right value, prefixed to the accumulator, for any sufficient fuel. -/
theorem natDigitsAux_spec (n : ℕ) : ∀ (fuel : ℕ) (acc : List Char), n < fuel →
    ∃ ds, natDigitsAux fuel n acc = ds ++ acc ∧ ds ≠ [] ∧
      (∀ c ∈ ds, jsDigit c = true) ∧ digitsVal ds = n := by
  induction n using Nat.strong_induction_on with
  | _ n ih =>
    intro fuel acc hfuel
    match fuel, hfuel with
    | fuel + 1, _ =>
      by_cases h10 : n < 10
      · refine ⟨[Char.ofNat (48 + n)], by simp [natDigitsAux, h10], by simp, ?_, ?_⟩
        · intro c hc
          rw [List.mem_singleton] at hc
          subst hc
          exact jsDigit_ofNat n h10
        · simp [digitsVal, digitVal_ofNat n h10]
      · have hdiv : n / 10 < n := Nat.div_lt_self (by omega) (by norm_num)
        obtain ⟨ds, heq, hne, hdig, hval⟩ :=
          ih (n / 10) hdiv fuel (Char.ofNat (48 + n % 10) :: acc) (by omega)
        have hm : n % 10 < 10 := Nat.mod_lt _ (by norm_num)
        refine ⟨ds ++ [Char.ofNat (48 + n % 10)], ?_, by simp, ?_, ?_⟩
        · simp only [natDigitsAux, if_neg h10, heq, List.append_assoc,
            List.singleton_append]
        · intro c hc
          rcases List.mem_append.mp hc with h | h
          · exact hdig c h
          · rw [List.mem_singleton] at h
            subst h
            exact jsDigit_ofNat _ hm
        · rw [digitsVal_append_singleton, hval, digitVal_ofNat _ hm, Nat.div_add_mod]

/-- `natDigits n` is never empty. -/
theorem natDigits_ne_nil (n : ℕ) : natDigits n ≠ [] := by
  obtain ⟨ds, heq, hne, -, -⟩ := natDigitsAux_spec n (n + 1) [] (by omega)
  unfold natDigits
  rw [heq, List.append_nil]
  exact hne

/-- Every character of `natDigits n` is a decimal digit. -/
theorem natDigits_digits (n : ℕ) : ∀ c ∈ natDigits n, jsDigit c = true := by
  obtain ⟨ds, heq, -, hdig, -⟩ := natDigitsAux_spec n (n + 1) [] (by omega)
  unfold natDigits
  rw [heq, List.append_nil]
  exact hdig

/-- Parsing the printed digits of `n` gives back `n`. -/
theorem digitsVal_natDigits (n : ℕ) : digitsVal (natDigits n) = n := by
  obtain ⟨ds, heq, -, -, hval⟩ := natDigitsAux_spec n (n + 1) [] (by omega)
  unfold natDigits
  rw [heq, List.append_nil]
  exact hval

/-- `takeWhile` over an all-satisfying prefix followed by a failing head. -/
theorem takeWhile_append_of_all (p : Char → Bool) (A B : List Char)
    (hA : ∀ a ∈ A, p a = true) (hB : ∀ b, B.head? = some b → p b = false) :
    (A ++ B).takeWhile p = A := by
  induction A with
  | nil =>
    cases B with
    | nil => rfl
    | cons b B => simp [List.takeWhile_cons, hB b rfl]
  | cons a A ihA =>
    have ha : p a = true := hA a (List.mem_cons_self a A)
    simp only [List.cons_append, List.takeWhile_cons, ha, if_true]
    rw [ihA fun x hx => hA x (List.mem_cons_of_mem a hx)]

/-- `dropWhile` over an all-satisfying prefix followed by a failing head. -/
theorem dropWhile_append_of_all (p : Char → Bool) (A B : List Char)
    (hA : ∀ a ∈ A, p a = true) (hB : ∀ b, B.head? = some b → p b = false) :
    (A ++ B).dropWhile p = B := by
  induction A with
  | nil =>
    cases B with
    | nil => rfl
    | cons b B => simp [List.dropWhile_cons, hB b rfl]
  | cons a A ihA =>
    have ha : p a = true := hA a (List.mem_cons_self a A)
    simp only [List.cons_append, List.dropWhile_cons, ha, if_true]
    exact ihA fun x hx => hA x (List.mem_cons_of_mem a hx)

/-- `dropWhile` is the identity when the head does not satisfy `p`. -/
theorem dropWhile_eq_self_of_head (p : Char → Bool) (l : List Char)
    (h : ∀ c, l.head? = some c → p c = false) : l.dropWhile p = l := by
  cases l with
  | nil => rfl
  | cons c r => simp [List.dropWhile_cons, h c rfl]

/-- `jsTrim` is the identity when both ends are not whitespace. -/
theorem jsTrim_eq_self (l : List Char)
    (h1 : ∀ c, l.head? = some c → jsWhitespace c = false)
    (h2 : ∀ c, l.getLast? = some c → jsWhitespace c = false) : jsTrim l = l := by
  unfold jsTrim
  rw [dropWhile_eq_self_of_head _ _ h1]
  rw [dropWhile_eq_self_of_head _ _ (by
    intro c hc
    rw [List.head?_reverse] at hc
    exact h2 c hc)]
  exact List.reverse_reverse l

/-- The head surviving a `dropWhile` does not satisfy the predicate. -/
theorem head?_dropWhile (p : Char → Bool) (l : List Char) :
    ∀ c, (l.dropWhile p).head? = some c → p c = false := by
  induction l with
  | nil => intro c hc; simp at hc
  | cons a r ih =>
    intro c hc
    rw [List.dropWhile_cons] at hc
    by_cases ha : p a
    · rw [if_pos ha] at hc
      exact ih c hc
    · rw [if_neg ha] at hc
      simp only [List.head?_cons, Option.some_inj] at hc
      subst hc
      exact Bool.eq_false_iff.mpr ha

/-- A nonempty suffix has the same last element. -/
theorem getLast?_of_suffix (s l : List Char) (hs : s <:+ l) (hne : s ≠ []) :
    l.getLast? = s.getLast? := by
  obtain ⟨pre, rfl⟩ := hs
  exact List.getLast?_append_of_ne_nil pre hne

/-- `jsTrim` is idempotent. -/
theorem jsTrim_idem (l : List Char) : jsTrim (jsTrim l) = jsTrim l := by
  by_cases hnil : jsTrim l = []
  · rw [hnil]; rfl
  · apply jsTrim_eq_self
    · intro c hc
      unfold jsTrim at hc hnil
      rw [List.head?_reverse] at hc
      have hsuffix : (((l.dropWhile jsWhitespace).reverse.dropWhile
          jsWhitespace)) <:+ (l.dropWhile jsWhitespace).reverse :=
        List.dropWhile_suffix jsWhitespace
      have hne : ((l.dropWhile jsWhitespace).reverse.dropWhile jsWhitespace) ≠ [] := by
        intro h0
        exact hnil (by rw [h0]; rfl)
      rw [← getLast?_of_suffix _ _ hsuffix hne, List.getLast?_reverse] at hc
      exact head?_dropWhile jsWhitespace _ c hc
    · intro c hc
      unfold jsTrim at hc
      rw [List.getLast?_reverse] at hc
      exact head?_dropWhile jsWhitespace _ c hc

/-- An all-whitespace verdict from an empty trim. -/
theorem all_ws_of_jsTrim_eq_nil (l : List Char) (h : jsTrim l = []) :
    ∀ c ∈ l, jsWhitespace c = true := by
  unfold jsTrim at h
  rw [List.reverse_eq_nil_iff, List.dropWhile_eq_nil_iff] at h
  intro c hc
  have hsplit := List.takeWhile_append_dropWhile (p := jsWhitespace) (l := l)
  rw [← hsplit] at hc
  rcases List.mem_append.mp hc with hin | hin
  · exact List.mem_takeWhile_imp hin
  · exact h c (List.mem_reverse.mpr hin)

/-! ## Lemmas about the regex model `matchNumBefore` -/

theorem tryNumAt_nil (t : Char) : tryNumAt t [] = none := rfl

theorem tryNumAt_nondigit (t c : Char) (r : List Char) (hc : jsDigit c = false) :
    tryNumAt t (c :: r) = none := by
  unfold tryNumAt
  simp [List.takeWhile_cons, hc]

theorem matchNumBefore_cons_nondigit (t c : Char) (r : List Char)
    (hc : jsDigit c = false) :
    matchNumBefore t (c :: r) = matchNumBefore t r := by
  rw [matchNumBefore, tryNumAt_nondigit t c r hc]

theorem tryNumAt_target_mem (t : Char) (s : List Char) (q : ℚ)
    (h : tryNumAt t s = some q) : t ∈ s := by
  have hsuf : ∀ X : List Char, X <:+ s →
      (X.dropWhile jsWhitespace).head? = some t → t ∈ s := by
    intro X hX hhead
    exact hX.subset ((List.dropWhile_suffix jsWhitespace).subset
      (List.mem_of_mem_head? hhead))
  unfold tryNumAt at h
  by_cases hI : s.takeWhile jsDigit = []
  · rw [if_pos hI] at h; exact absurd h (by simp)
  · rw [if_neg hI] at h
    simp only at h
    by_cases hdot : (s.dropWhile jsDigit).head? = some '.'
    · rw [if_pos hdot] at h
      by_cases hF : (s.dropWhile jsDigit).tail.takeWhile jsDigit = []
      · rw [if_pos hF] at h
        simp only at h
        by_cases ht : ((s.dropWhile jsDigit).dropWhile jsWhitespace).head? = some t
        · exact hsuf _ (List.dropWhile_suffix jsDigit) ht
        · rw [if_neg ht] at h; exact absurd h (by simp)
      · rw [if_neg hF] at h
        simp only at h
        by_cases ht : (((s.dropWhile jsDigit).tail.dropWhile
            jsDigit).dropWhile jsWhitespace).head? = some t
        · exact hsuf _ ((List.dropWhile_suffix jsDigit).trans
            ((List.tail_suffix _).trans (List.dropWhile_suffix jsDigit))) ht
        · rw [if_neg ht] at h; exact absurd h (by simp)
    · rw [if_neg hdot] at h
      simp only at h
      by_cases ht : ((s.dropWhile jsDigit).dropWhile jsWhitespace).head? = some t
      · exact hsuf _ (List.dropWhile_suffix jsDigit) ht
      · rw [if_neg ht] at h; exact absurd h (by simp)

theorem ws_not_digit (c : Char) (h : jsWhitespace c = true) : jsDigit c = false := by
  by_cases hd : jsDigit c
  · exact absurd h (by rw [jsDigit_not_ws c hd]; simp)
  · exact Bool.eq_false_iff.mpr hd

theorem tryNumAt_digits_then_bad (t b : Char) (I rest : List Char)
    (hI : ∀ c ∈ I, jsDigit c = true) (hne : I ≠ [])
    (hb1 : jsDigit b = false) (hb2 : b ≠ '.') (hb3 : jsWhitespace b = false)
    (hb4 : b ≠ t) :
    tryNumAt t (I ++ b :: rest) = none := by
  unfold tryNumAt
  rw [takeWhile_append_of_all jsDigit I (b :: rest) hI
    (by intro x hx; simp only [List.head?_cons, Option.some_inj] at hx; subst hx; exact hb1)]
  rw [dropWhile_append_of_all jsDigit I (b :: rest) hI
    (by intro x hx; simp only [List.head?_cons, Option.some_inj] at hx; subst hx; exact hb1)]
  rw [if_neg hne]
  simp only [List.head?_cons]
  rw [if_neg (fun hx => hb2 (Option.some_inj.mp hx))]
  simp only [List.dropWhile_cons, hb3, Bool.false_eq_true, if_false, List.head?_cons]
  rw [if_neg (fun hx => hb4 (Option.some_inj.mp hx))]

theorem matchNumBefore_of_tryNumAt (t : Char) (s : List Char) (q : ℚ)
    (h : tryNumAt t s = some q) : matchNumBefore t s = some q := by
  cases s with
  | nil => rw [tryNumAt_nil] at h; exact absurd h (by simp)
  | cons c r => rw [matchNumBefore, h]

theorem matchNumBefore_of_not_mem (t : Char) (s : List Char) (h : t ∉ s) :
    matchNumBefore t s = none := by
  induction s with
  | nil => rfl
  | cons c r ih =>
    have htr : t ∉ r := fun hr => h (List.mem_cons_of_mem c hr)
    rcases htry : tryNumAt t (c :: r) with _ | q
    · rw [matchNumBefore, htry]
      exact ih htr
    · exact absurd (tryNumAt_target_mem t _ q htry) h

theorem matchNumBefore_digits_block (t b : Char) (D rest : List Char)
    (hD : ∀ c ∈ D, jsDigit c = true)
    (hb1 : jsDigit b = false) (hb2 : b ≠ '.') (hb3 : jsWhitespace b = false)
    (hb4 : b ≠ t) :
    matchNumBefore t (D ++ b :: rest) = matchNumBefore t rest := by
  induction D with
  | nil => simpa using matchNumBefore_cons_nondigit t b rest hb1
  | cons d D ih =>
    have hD' : ∀ c ∈ D, jsDigit c = true := fun c hc => hD c (List.mem_cons_of_mem d hc)
    have htry : tryNumAt t (d :: (D ++ b :: rest)) = none := by
      rw [← List.cons_append]
      exact tryNumAt_digits_then_bad t b (d :: D) rest hD (by simp) hb1 hb2 hb3 hb4
    rw [List.cons_append, matchNumBefore, htry]
    exact ih hD'

theorem tryNumAt_token (t : Char) (I W rest : List Char)
    (hI : ∀ c ∈ I, jsDigit c = true) (hne : I ≠ [])
    (hW : ∀ c ∈ W, jsWhitespace c = true)
    (ht1 : t ≠ '.') (ht2 : jsDigit t = false) (ht3 : jsWhitespace t = false) :
    tryNumAt t (I ++ (W ++ t :: rest)) = some ((digitsVal I : ℚ)) := by
  have hWhead : ∀ x, (W ++ t :: rest).head? = some x → jsDigit x = false := by
    intro x hx
    cases W with
    | nil =>
      simp only [List.nil_append, List.head?_cons, Option.some_inj] at hx
      subst hx; exact ht2
    | cons w W' =>
      simp only [List.cons_append, List.head?_cons, Option.some_inj] at hx
      subst hx
      exact ws_not_digit w (hW w (List.mem_cons_self w W'))
  unfold tryNumAt
  rw [takeWhile_append_of_all jsDigit I (W ++ t :: rest) hI hWhead]
  rw [dropWhile_append_of_all jsDigit I (W ++ t :: rest) hI hWhead]
  rw [if_neg hne]
  have hdot : ¬ (W ++ t :: rest).head? = some '.' := by
    intro hx
    cases W with
    | nil =>
      simp only [List.nil_append, List.head?_cons, Option.some_inj] at hx
      exact ht1 hx
    | cons w W' =>
      simp only [List.cons_append, List.head?_cons, Option.some_inj] at hx
      subst hx
      exact absurd (hW '.' (List.mem_cons_self _ W')) (by decide)
  simp only
  rw [if_neg hdot]
  simp only
  rw [dropWhile_append_of_all jsWhitespace W (t :: rest) hW
    (by intro x hx; simp only [List.head?_cons, Option.some_inj] at hx; subst hx; exact ht3)]
  simp

theorem tryNumAt_token_frac (t : Char) (I F W rest : List Char)
    (hI : ∀ c ∈ I, jsDigit c = true) (hne : I ≠ [])
    (hF : ∀ c ∈ F, jsDigit c = true) (hFne : F ≠ [])
    (hW : ∀ c ∈ W, jsWhitespace c = true)
    (ht1 : t ≠ '.') (ht2 : jsDigit t = false) (ht3 : jsWhitespace t = false) :
    tryNumAt t (I ++ ('.' :: (F ++ (W ++ t :: rest)))) =
      some ((digitsVal I : ℚ) + (digitsVal F : ℚ) / 10 ^ F.length) := by
  have hWhead : ∀ x, (W ++ t :: rest).head? = some x → jsDigit x = false := by
    intro x hx
    cases W with
    | nil =>
      simp only [List.nil_append, List.head?_cons, Option.some_inj] at hx
      subst hx; exact ht2
    | cons w W' =>
      simp only [List.cons_append, List.head?_cons, Option.some_inj] at hx
      subst hx
      exact ws_not_digit w (hW w (List.mem_cons_self w W'))
  have hdothead : ∀ x, ('.' :: (F ++ (W ++ t :: rest))).head? = some x → jsDigit x = false := by
    intro x hx
    simp only [List.head?_cons, Option.some_inj] at hx
    subst hx; decide
  unfold tryNumAt
  rw [takeWhile_append_of_all jsDigit I ('.' :: (F ++ (W ++ t :: rest))) hI hdothead]
  rw [dropWhile_append_of_all jsDigit I ('.' :: (F ++ (W ++ t :: rest))) hI hdothead]
  rw [if_neg hne]
  simp only [List.head?_cons, if_pos rfl, List.tail_cons]
  rw [takeWhile_append_of_all jsDigit F (W ++ t :: rest) hF hWhead]
  rw [dropWhile_append_of_all jsDigit F (W ++ t :: rest) hF hWhead]
  rw [if_neg hFne]
  have hdw : List.dropWhile jsWhitespace (W ++ t :: rest) = t :: rest :=
    dropWhile_append_of_all jsWhitespace W (t :: rest) hW
      (by intro x hx; simp only [List.head?_cons, Option.some_inj] at hx; subst hx; exact ht3)
  simp [hdw]

/-! ## Lowercasing, trimming and membership lemmas -/

/-- `toNat` of the lowercased character. -/
theorem toNat_jsToLowerChar (c : Char) :
    (jsToLowerChar c).toNat =
      if 65 ≤ c.toNat ∧ c.toNat ≤ 90 then c.toNat + 32 else c.toNat := by
  unfold jsToLowerChar
  by_cases h : 65 ≤ c.toNat ∧ c.toNat ≤ 90
  · rw [if_pos h, if_pos h]
    exact toNat_charOfNat _ (by omega)
  · rw [if_neg h, if_neg h]

/-- Lowercasing does not change whitespace-ness. -/
theorem jsWhitespace_jsToLowerChar (c : Char) :
    jsWhitespace (jsToLowerChar c) = jsWhitespace c := by
  have ht := toNat_jsToLowerChar c
  by_cases h : 65 ≤ c.toNat ∧ c.toNat ≤ 90
  · rw [if_pos h] at ht
    simp only [jsWhitespace, ht, decide_eq_decide]
    omega
  · rw [if_neg h] at ht
    simp only [jsWhitespace, ht]

/-- Lowercasing does not change digit-ness. -/
theorem jsDigit_jsToLowerChar (c : Char) :
    jsDigit (jsToLowerChar c) = jsDigit c := by
  have ht := toNat_jsToLowerChar c
  by_cases h : 65 ≤ c.toNat ∧ c.toNat ≤ 90
  · rw [if_pos h] at ht
    simp only [jsDigit, ht, decide_eq_decide]
    omega
  · rw [if_neg h] at ht
    simp only [jsDigit, ht]

/-- Lowercasing never produces a capital `I`. -/
theorem jsToLowerChar_ne_I (c : Char) : jsToLowerChar c ≠ 'I' := by
  intro heq
  have ht := toNat_jsToLowerChar c
  rw [heq] at ht
  have hI : ('I' : Char).toNat = 73 := rfl
  rw [hI] at ht
  by_cases h : 65 ≤ c.toNat ∧ c.toNat ≤ 90
  · rw [if_pos h] at ht; omega
  · rw [if_neg h] at ht; omega

/-- Lowercasing never produces a colon from a non-colon. -/
theorem jsToLowerChar_eq_colon (c : Char) (h : jsToLowerChar c = ':') : c = ':' := by
  have ht := toNat_jsToLowerChar c
  rw [h] at ht
  have hc : (':' : Char).toNat = 58 := rfl
  rw [hc] at ht
  by_cases hu : 65 ≤ c.toNat ∧ c.toNat ≤ 90
  · rw [if_pos hu] at ht; omega
  · rw [if_neg hu] at ht
    unfold jsToLowerChar at h
    rwa [if_neg hu] at h

/-- Lowercasing fixes strings without capital ASCII letters. -/
theorem jsToLower_eq_self (l : List Char)
    (h : ∀ c ∈ l, ¬(65 ≤ c.toNat ∧ c.toNat ≤ 90)) : jsToLower l = l := by
  induction l with
  | nil => rfl
  | cons c r ih =>
    unfold jsToLower
    simp only [List.map_cons]
    rw [show jsToLowerChar c = c from if_neg (h c (List.mem_cons_self c r))]
    have := ih (fun d hd => h d (List.mem_cons_of_mem c hd))
    unfold jsToLower at this
    rw [this]

/-- Characters of the trimmed string come from the original string. -/
theorem mem_jsTrim (c : Char) (l : List Char) (h : c ∈ jsTrim l) : c ∈ l := by
  unfold jsTrim at h
  rw [List.mem_reverse] at h
  have h2 := (List.dropWhile_suffix jsWhitespace).subset h
  rw [List.mem_reverse] at h2
  exact (List.dropWhile_suffix jsWhitespace).subset h2

/-- Trimming removes a leading whitespace character. -/
theorem jsTrim_cons_ws (c : Char) (l : List Char) (h : jsWhitespace c = true) :
    jsTrim (c :: l) = jsTrim l := by
  unfold jsTrim
  rw [List.dropWhile_cons_of_pos h]

/-- `head?` of an append with a nonempty left part. -/
theorem head?_append_of_ne_nil (A B : List Char) (h : A ≠ []) :
    (A ++ B).head? = A.head? := by
  cases A with
  | nil => exact absurd rfl h
  | cons a r => rfl

/-- The `h`/`m` regex never matches a digit-free string. -/
theorem matchNumBefore_no_digit (t : Char) (s : List Char)
    (h : ∀ c ∈ s, jsDigit c = false) : matchNumBefore t s = none := by
  induction s with
  | nil => rfl
  | cons c r ih =>
    rw [matchNumBefore_cons_nondigit t c r (h c (List.mem_cons_self c r))]
    exact ih (fun d hd => h d (List.mem_cons_of_mem c hd))

/-- `split` on a separator absent from the string. -/
theorem splitOnChar_not_mem (sep : Char) (l : List Char) (h : sep ∉ l) :
    splitOnChar sep l = [l] := by
  induction l with
  | nil => rfl
  | cons c r ih =>
    have hc : ¬c = sep := fun he => h (he ▸ List.mem_cons_self c r)
    have ihr := ih (fun hm => h (List.mem_cons_of_mem c hm))
    rw [splitOnChar, if_neg hc, ihr]

/-- `split` at the first separator occurrence. -/
theorem splitOnChar_append (sep : Char) (H M : List Char) (hH : sep ∉ H) :
    splitOnChar sep (H ++ sep :: M) = H :: splitOnChar sep M := by
  induction H with
  | nil =>
    rw [List.nil_append, splitOnChar, if_pos rfl]
  | cons c r ih =>
    have hc : ¬c = sep := fun he => hH (he ▸ List.mem_cons_self c r)
    have ihr := ih (fun hm => hH (List.mem_cons_of_mem c hm))
    rw [List.cons_append, splitOnChar, if_neg hc, ihr]

/-! ## Computation lemmas for the decimal-literal parser -/

/-- `parseExponent` consumes nothing when the next character is not `e`/`E`. -/
theorem parseExponent_not_e (r : List Char)
    (h : ∀ c, r.head? = some c → c ≠ 'e' ∧ c ≠ 'E') : parseExponent r = (0, r) := by
  unfold parseExponent
  rw [if_neg]
  rintro (hc | hc)
  · exact (h 'e' hc).1 rfl
  · exact (h 'E' hc).2 rfl

/-- The decimal parser on a pure digit string. -/
theorem parseUnsignedDecimal_digits (D : List Char)
    (hD : ∀ c ∈ D, jsDigit c = true) (hne : D ≠ []) :
    parseUnsignedDecimal D = some ((digitsVal D : ℚ), []) := by
  have ht : D.takeWhile jsDigit = D := List.takeWhile_eq_self_iff.mpr hD
  have hd : D.dropWhile jsDigit = [] := List.dropWhile_eq_nil_iff.mpr (fun c hc => hD c hc)
  have hexp : parseExponent [] = (0, []) := rfl
  simp only [parseUnsignedDecimal, ht, hd, if_neg hne, List.head?_nil, hexp]
  norm_num
  exact fun hco => absurd hco (by simp)

/-- The decimal parser on digits followed by a non-numeric character. -/
theorem parseUnsignedDecimal_digits_break (D rest : List Char) (b : Char)
    (hD : ∀ c ∈ D, jsDigit c = true) (hne : D ≠ [])
    (hb : jsDigit b = false) (hb2 : b ≠ '.') (hb3 : b ≠ 'e') (hb4 : b ≠ 'E') :
    parseUnsignedDecimal (D ++ b :: rest) = some ((digitsVal D : ℚ), b :: rest) := by
  have hhd : ∀ x, (b :: rest).head? = some x → jsDigit x = false := by
    intro x hx
    simp only [List.head?_cons, Option.some_inj] at hx
    subst hx; exact hb
  have ht := takeWhile_append_of_all jsDigit D (b :: rest) hD hhd
  have hd := dropWhile_append_of_all jsDigit D (b :: rest) hD hhd
  have hexp : parseExponent (b :: rest) = (0, b :: rest) := by
    apply parseExponent_not_e
    intro c hc
    simp only [List.head?_cons, Option.some_inj] at hc
    subst hc; exact ⟨hb3, hb4⟩
  have hdot : ¬(b :: rest).head? = some '.' := by
    simp only [List.head?_cons, Option.some_inj]
    exact hb2
  simp only [parseUnsignedDecimal, ht, hd, if_neg hne, if_neg hdot, hexp]
  norm_num

/-- The decimal parser on `digits.digits`. -/
theorem parseUnsignedDecimal_frac (D F : List Char)
    (hD : ∀ c ∈ D, jsDigit c = true) (hne : D ≠ [])
    (hF : ∀ c ∈ F, jsDigit c = true) (hFne : F ≠ []) :
    parseUnsignedDecimal (D ++ '.' :: F) =
      some ((digitsVal D : ℚ) + (digitsVal F : ℚ) / 10 ^ F.length, []) := by
  have hhd : ∀ x, ('.' :: F).head? = some x → jsDigit x = false := by
    intro x hx
    simp only [List.head?_cons, Option.some_inj] at hx
    subst hx; decide
  have ht := takeWhile_append_of_all jsDigit D ('.' :: F) hD hhd
  have hd := dropWhile_append_of_all jsDigit D ('.' :: F) hD hhd
  have htF : F.takeWhile jsDigit = F := List.takeWhile_eq_self_iff.mpr hF
  have hdF : F.dropWhile jsDigit = [] := List.dropWhile_eq_nil_iff.mpr (fun c hc => hF c hc)
  have hexp : parseExponent [] = (0, []) := rfl
  simp only [parseUnsignedDecimal, ht, hd, if_neg hne, List.head?_cons, List.tail_cons,
    htF, hdF, hexp]
  norm_num

/-- A successful decimal parse requires a digit in the input. -/
theorem parseUnsignedDecimal_digit (s : List Char) (p : ℚ × List Char)
    (h : parseUnsignedDecimal s = some p) : ∃ d ∈ s, jsDigit d = true := by
  by_cases hI : s.takeWhile jsDigit = []
  · unfold parseUnsignedDecimal at h
    rw [if_pos hI] at h
    by_cases hdot : (s.dropWhile jsDigit).head? = some '.'
    · rw [if_pos hdot] at h
      by_cases hF : ((s.dropWhile jsDigit).tail.takeWhile jsDigit) = []
      · rw [if_pos hF] at h
        exact absurd h (by simp)
      · obtain ⟨d, hd⟩ := List.exists_mem_of_ne_nil _ hF
        refine ⟨d, ?_, List.mem_takeWhile_imp hd⟩
        have hpref := List.takeWhile_prefix jsDigit
          (l := (s.dropWhile jsDigit).tail)
        have h1 : d ∈ (s.dropWhile jsDigit).tail := hpref.subset hd
        have h2 : d ∈ s.dropWhile jsDigit := by
          cases hx : s.dropWhile jsDigit with
          | nil => rw [hx] at h1; exact absurd h1 (by simp)
          | cons a r =>
            rw [hx] at h1
            exact List.mem_cons_of_mem a h1
        exact (List.dropWhile_suffix jsDigit).subset h2
    · rw [if_neg hdot] at h
      exact absurd h (by simp)
  · obtain ⟨d, hd⟩ := List.exists_mem_of_ne_nil _ hI
    have hpref := List.takeWhile_prefix jsDigit (l := s)
    exact ⟨d, hpref.subset hd, List.mem_takeWhile_imp hd⟩

/-! ## Computation lemmas for `Number` and `parseFloat` -/

/-- `take 1` determines `head?`. -/
theorem head?_of_take_one (l : List Char) (c : Char) (h : l.take 1 = [c]) :
    l.head? = some c := by
  cases l with
  | nil => simp at h
  | cons a r =>
    rw [List.take_succ_cons, List.take_zero, List.cons.injEq] at h
    rw [List.head?_cons, h.1]

/-- `Number` on an optionally `-`-signed string whose unsigned part starts
with a digit, is already trimmed, and parses as a decimal literal. -/
theorem jsNumber_sign_digit (S t : List Char) (q : ℚ) (r : List Char)
    (hS : S = [] ∨ S = ['-'])
    (hhead : ∃ d, t.head? = some d ∧ jsDigit d = true)
    (h2 : ∀ c, t.tail.head? = some c →
      c ≠ 'x' ∧ c ≠ 'X' ∧ c ≠ 'o' ∧ c ≠ 'O' ∧ c ≠ 'b' ∧ c ≠ 'B')
    (htrim : jsTrim (S ++ t) = S ++ t)
    (hp : parseUnsignedDecimal t = some (q, r)) :
    jsNumber (S ++ t) =
      if r = [] then JSNumber.val ((if S = ['-'] then (-1 : ℚ) else 1) * q)
      else JSNumber.nan := by
  obtain ⟨d, hd, hdig⟩ := hhead
  obtain ⟨t', rfl⟩ : ∃ t', t = d :: t' := by
    cases t with
    | nil => simp at hd
    | cons a b =>
      simp only [List.head?_cons, Option.some_inj] at hd
      exact ⟨b, by rw [hd]⟩
  simp only [List.tail_cons] at h2
  have hdm : d ≠ '-' := fun he => absurd hdig (by rw [he]; decide)
  have hdp : d ≠ '+' := fun he => absurd hdig (by rw [he]; decide)
  have hdI : d ≠ 'I' := fun he => absurd hdig (by rw [he]; decide)
  have hInf : ¬(d :: t' = ['I', 'n', 'f', 'i', 'n', 'i', 't', 'y']) := by
    intro hc
    rw [List.cons.injEq] at hc
    exact hdI hc.1
  rcases hS with rfl | rfl
  · simp only [List.nil_append] at htrim ⊢
    have hne : ¬(d :: t' = []) := by simp
    have hrx : ¬((d :: t').take 2 = ['0', 'x'] ∨ (d :: t').take 2 = ['0', 'X']) := by
      rintro (hc | hc) <;> rw [List.take_succ_cons, List.cons.injEq] at hc
      · exact (h2 'x' (head?_of_take_one t' 'x' hc.2)).1 rfl
      · exact (h2 'X' (head?_of_take_one t' 'X' hc.2)).2.1 rfl
    have hro : ¬((d :: t').take 2 = ['0', 'o'] ∨ (d :: t').take 2 = ['0', 'O']) := by
      rintro (hc | hc) <;> rw [List.take_succ_cons, List.cons.injEq] at hc
      · exact (h2 'o' (head?_of_take_one t' 'o' hc.2)).2.2.1 rfl
      · exact (h2 'O' (head?_of_take_one t' 'O' hc.2)).2.2.2.1 rfl
    have hrb : ¬((d :: t').take 2 = ['0', 'b'] ∨ (d :: t').take 2 = ['0', 'B']) := by
      rintro (hc | hc) <;> rw [List.take_succ_cons, List.cons.injEq] at hc
      · exact (h2 'b' (head?_of_take_one t' 'b' hc.2)).2.2.2.2.1 rfl
      · exact (h2 'B' (head?_of_take_one t' 'B' hc.2)).2.2.2.2.2 rfl
    have hsm : ¬((d :: t').head? = some '-') := by
      simp only [List.head?_cons, Option.some_inj]
      exact hdm
    have hsign : ¬((d :: t').head? = some '-' ∨ (d :: t').head? = some '+') := by
      rintro (hc | hc) <;> simp only [List.head?_cons, Option.some_inj] at hc
      · exact hdm hc
      · exact hdp hc
    simp only [jsNumber, htrim, if_neg hne, if_neg hrx, if_neg hro, if_neg hrb,
      if_neg hsm, if_neg hsign, if_neg hInf, hp]
    simp
  · simp only [List.singleton_append] at htrim ⊢
    have hne : ¬('-' :: d :: t' = []) := by simp
    have hrx : ¬(('-' :: d :: t').take 2 = ['0', 'x'] ∨
        ('-' :: d :: t').take 2 = ['0', 'X']) := by
      rintro (hc | hc) <;> rw [List.take_succ_cons, List.cons.injEq] at hc <;>
        exact absurd hc.1 (by decide)
    have hro : ¬(('-' :: d :: t').take 2 = ['0', 'o'] ∨
        ('-' :: d :: t').take 2 = ['0', 'O']) := by
      rintro (hc | hc) <;> rw [List.take_succ_cons, List.cons.injEq] at hc <;>
        exact absurd hc.1 (by decide)
    have hrb : ¬(('-' :: d :: t').take 2 = ['0', 'b'] ∨
        ('-' :: d :: t').take 2 = ['0', 'B']) := by
      rintro (hc | hc) <;> rw [List.take_succ_cons, List.cons.injEq] at hc <;>
        exact absurd hc.1 (by decide)
    have hsm : ('-' :: d :: t').head? = some '-' := rfl
    simp only [jsNumber, htrim, if_neg hne, if_neg hrx, if_neg hro, if_neg hrb,
      if_pos hsm, if_pos (Or.inl hsm), List.tail_cons, if_neg hInf, hp]
    simp

/-- `parseFloat` on an optionally `-`-signed string whose unsigned part
starts with a digit and parses as a decimal literal; trailing garbage is
ignored. -/
theorem jsParseFloat_sign_digit (S t : List Char) (q : ℚ) (r : List Char)
    (hS : S = [] ∨ S = ['-'])
    (hhead : ∃ d, t.head? = some d ∧ jsDigit d = true)
    (hp : parseUnsignedDecimal t = some (q, r)) :
    jsParseFloat (S ++ t) = JSNumber.val ((if S = ['-'] then (-1 : ℚ) else 1) * q) := by
  obtain ⟨d, hd, hdig⟩ := hhead
  obtain ⟨t', rfl⟩ : ∃ t', t = d :: t' := by
    cases t with
    | nil => simp at hd
    | cons a b =>
      simp only [List.head?_cons, Option.some_inj] at hd
      exact ⟨b, by rw [hd]⟩
  have hdm : d ≠ '-' := fun he => absurd hdig (by rw [he]; decide)
  have hdp : d ≠ '+' := fun he => absurd hdig (by rw [he]; decide)
  have hdI : d ≠ 'I' := fun he => absurd hdig (by rw [he]; decide)
  have hInf : ¬((d :: t').take 8 = ['I', 'n', 'f', 'i', 'n', 'i', 't', 'y']) := by
    intro hc
    rw [List.take_succ_cons, List.cons.injEq] at hc
    exact hdI hc.1
  rcases hS with rfl | rfl
  · simp only [List.nil_append]
    have hdrop : (d :: t').dropWhile jsWhitespace = d :: t' := by
      apply dropWhile_eq_self_of_head
      intro c hc
      simp only [List.head?_cons, Option.some_inj] at hc
      subst hc
      exact jsDigit_not_ws d hdig
    have hsm : ¬((d :: t').head? = some '-') := by
      simp only [List.head?_cons, Option.some_inj]
      exact hdm
    have hsign : ¬((d :: t').head? = some '-' ∨ (d :: t').head? = some '+') := by
      rintro (hc | hc) <;> simp only [List.head?_cons, Option.some_inj] at hc
      · exact hdm hc
      · exact hdp hc
    simp only [jsParseFloat, hdrop, if_neg hsm, if_neg hsign, if_neg hInf, hp]
    simp
  · simp only [List.singleton_append]
    have hdrop : ('-' :: d :: t').dropWhile jsWhitespace = '-' :: d :: t' := by
      apply dropWhile_eq_self_of_head
      intro c hc
      simp only [List.head?_cons, Option.some_inj] at hc
      subst hc
      decide
    have hsm : ('-' :: d :: t').head? = some '-' := rfl
    simp only [jsParseFloat, hdrop, if_pos hsm, if_pos (Or.inl hsm), List.tail_cons,
      if_neg hInf, hp]
    simp

/-- `Number` can only avoid `NaN` on the empty trimmed string or in the
presence of a decimal digit or a capital `I`. -/
theorem jsNumber_ne_nan_mem (s : List Char) (h : jsNumber s ≠ JSNumber.nan) :
    jsTrim s = [] ∨ (∃ d ∈ s, jsDigit d = true) ∨ 'I' ∈ s := by
  by_cases h0 : jsTrim s = []
  · exact Or.inl h0
  right
  unfold jsNumber at h
  simp only at h
  rw [if_neg h0] at h
  have hmem0 : ∀ hc : (jsTrim s).take 2 = ['0', 'x'] ∨ (jsTrim s).take 2 = ['0', 'X'] ∨
      (jsTrim s).take 2 = ['0', 'o'] ∨ (jsTrim s).take 2 = ['0', 'O'] ∨
      (jsTrim s).take 2 = ['0', 'b'] ∨ (jsTrim s).take 2 = ['0', 'B'],
      ∃ d ∈ s, jsDigit d = true := by
    intro hc
    have hh : (jsTrim s).head? = some '0' := by
      cases hjt : jsTrim s with
      | nil => exact absurd hjt h0
      | cons a rr =>
        rw [hjt] at hc
        rw [List.head?_cons]
        rcases hc with hc | hc | hc | hc | hc | hc <;>
          (rw [List.take_succ_cons, List.cons.injEq] at hc; rw [hc.1])
    exact ⟨'0', mem_jsTrim _ _ (List.mem_of_mem_head? hh), by decide⟩
  by_cases hx : (jsTrim s).take 2 = ['0', 'x'] ∨ (jsTrim s).take 2 = ['0', 'X']
  · exact Or.inl (hmem0 (by tauto))
  rw [if_neg hx] at h
  by_cases ho : (jsTrim s).take 2 = ['0', 'o'] ∨ (jsTrim s).take 2 = ['0', 'O']
  · exact Or.inl (hmem0 (by tauto))
  rw [if_neg ho] at h
  by_cases hb : (jsTrim s).take 2 = ['0', 'b'] ∨ (jsTrim s).take 2 = ['0', 'B']
  · exact Or.inl (hmem0 (by tauto))
  rw [if_neg hb] at h
  have hsub : ∀ c : Char,
      c ∈ (if (jsTrim s).head? = some '-' ∨ (jsTrim s).head? = some '+'
        then (jsTrim s).tail else jsTrim s) → c ∈ jsTrim s := by
    intro c hc
    by_cases hsg : (jsTrim s).head? = some '-' ∨ (jsTrim s).head? = some '+'
    · rw [if_pos hsg] at hc
      exact List.mem_of_mem_tail hc
    · rwa [if_neg hsg] at hc
  by_cases hInf : (if (jsTrim s).head? = some '-' ∨ (jsTrim s).head? = some '+'
      then (jsTrim s).tail else jsTrim s) = ['I', 'n', 'f', 'i', 'n', 'i', 't', 'y']
  · refine Or.inr (mem_jsTrim _ _ (hsub 'I' ?_))
    rw [hInf]
    simp
  rw [if_neg hInf] at h
  rcases hpd : parseUnsignedDecimal (if (jsTrim s).head? = some '-' ∨
      (jsTrim s).head? = some '+' then (jsTrim s).tail else jsTrim s) with _ | p
  · rw [hpd] at h
    simp at h
  · obtain ⟨dd, hdd, hddig⟩ := parseUnsignedDecimal_digit _ p hpd
    exact Or.inl ⟨dd, mem_jsTrim _ _ (hsub dd hdd), hddig⟩

/-! ## `parseDuration` on the accepted input shapes -/

/-- A string of non-whitespace characters trims to itself. -/
theorem jsTrim_eq_self_of_mem (l : List Char)
    (h : ∀ c ∈ l, jsWhitespace c = false) : jsTrim l = l :=
  jsTrim_eq_self l (fun c hc => h c (List.mem_of_mem_head? hc))
    (fun c hc => h c (List.mem_of_mem_getLast? hc))

/-- A digit character is not one of the radix-prefix letters. -/
theorem not_radix_letter_of_digit (c : Char) (h : jsDigit c = true) :
    c ≠ 'x' ∧ c ≠ 'X' ∧ c ≠ 'o' ∧ c ≠ 'O' ∧ c ≠ 'b' ∧ c ≠ 'B' := by
  refine ⟨?_, ?_, ?_, ?_, ?_, ?_⟩ <;>
    (intro he; rw [he] at h; exact absurd h (by decide))

/-- The second character of `digits ++ rest` is a digit or the head of
`rest`. -/
theorem second_of_digits_append (D rest : List Char)
    (hD : ∀ c ∈ D, jsDigit c = true) (hne : D ≠ []) :
    ∀ c, (D ++ rest).tail.head? = some c → jsDigit c = true ∨ rest.head? = some c := by
  cases D with
  | nil => exact absurd rfl hne
  | cons d D' =>
    intro c hc
    rw [List.cons_append, List.tail_cons] at hc
    cases D' with
    | nil => exact Or.inr hc
    | cons d2 D'' =>
      rw [List.cons_append, List.head?_cons, Option.some_inj] at hc
      exact Or.inl (hc ▸ hD d2 (List.mem_cons_of_mem d (List.mem_cons_self d2 D'')))

/-- `parseDuration` on input that canonicalizes to a pure digit string. -/
theorem parseDuration_clean_digits (s D : List Char) (hs : s ≠ [])
    (hclean : jsTrim (jsToLower s) = D)
    (hD : ∀ c ∈ D, jsDigit c = true) (hne : D ≠ []) :
    parseDuration s = some (JSNumber.val ((digitsVal D : ℚ))) := by
  have hhead : ∃ d, D.head? = some d ∧ jsDigit d = true := by
    cases D with
    | nil => exact absurd rfl hne
    | cons d D' => exact ⟨d, rfl, hD d (List.mem_cons_self d D')⟩
  have h2 : ∀ c, D.tail.head? = some c →
      c ≠ 'x' ∧ c ≠ 'X' ∧ c ≠ 'o' ∧ c ≠ 'O' ∧ c ≠ 'b' ∧ c ≠ 'B' := by
    intro c hc
    rcases second_of_digits_append D [] hD hne c (by rwa [List.append_nil]) with hdg | hr
    · exact not_radix_letter_of_digit c hdg
    · simp at hr
  have hp := parseUnsignedDecimal_digits D hD hne
  have htrim : jsTrim ([] ++ D) = [] ++ D := by
    rw [List.nil_append]
    exact jsTrim_eq_self_of_mem D (fun c hc => jsDigit_not_ws c (hD c hc))
  have hnum := jsNumber_sign_digit [] D _ [] (Or.inl rfl) hhead h2 htrim hp
  rw [List.nil_append] at hnum
  simp only [if_pos rfl] at hnum
  have hnum' : jsNumber D = JSNumber.val ((digitsVal D : ℚ)) := by
    rw [hnum]; simp
  have hfl := jsParseFloat_sign_digit [] D _ [] (Or.inl rfl) hhead hp
  rw [List.nil_append] at hfl
  have hfl' : jsParseFloat D = JSNumber.val ((digitsVal D : ℚ)) := by
    rw [hfl]; simp
  unfold parseDuration
  rw [if_neg hs]
  simp only [hclean, hnum', hfl']
  simp

/-- `parseDuration` on input that canonicalizes to `digits.digits`. -/
theorem parseDuration_clean_frac (s D F : List Char) (hs : s ≠ [])
    (hclean : jsTrim (jsToLower s) = D ++ '.' :: F)
    (hD : ∀ c ∈ D, jsDigit c = true) (hne : D ≠ [])
    (hF : ∀ c ∈ F, jsDigit c = true) (hFne : F ≠ []) :
    parseDuration s =
      some (JSNumber.val ((digitsVal D : ℚ) + (digitsVal F : ℚ) / 10 ^ F.length)) := by
  have hhead : ∃ d, (D ++ '.' :: F).head? = some d ∧ jsDigit d = true := by
    cases D with
    | nil => exact absurd rfl hne
    | cons d D' =>
      exact ⟨d, rfl, hD d (List.mem_cons_self d D')⟩
  have h2 : ∀ c, (D ++ '.' :: F).tail.head? = some c →
      c ≠ 'x' ∧ c ≠ 'X' ∧ c ≠ 'o' ∧ c ≠ 'O' ∧ c ≠ 'b' ∧ c ≠ 'B' := by
    intro c hc
    rcases second_of_digits_append D ('.' :: F) hD hne c hc with hdg | hr
    · exact not_radix_letter_of_digit c hdg
    · rw [List.head?_cons, Option.some_inj] at hr
      subst hr
      refine ⟨?_, ?_, ?_, ?_, ?_, ?_⟩ <;> decide
  have hp := parseUnsignedDecimal_frac D F hD hne hF hFne
  have htrim : jsTrim ([] ++ (D ++ '.' :: F)) = [] ++ (D ++ '.' :: F) := by
    rw [List.nil_append]
    apply jsTrim_eq_self_of_mem
    intro c hc
    rcases List.mem_append.mp hc with hc | hc
    · exact jsDigit_not_ws c (hD c hc)
    · rcases List.mem_cons.mp hc with rfl | hc
      · decide
      · exact jsDigit_not_ws c (hF c hc)
  have hnum := jsNumber_sign_digit [] (D ++ '.' :: F) _ [] (Or.inl rfl) hhead h2 htrim hp
  rw [List.nil_append] at hnum
  simp only [if_pos rfl] at hnum
  have hnum' : jsNumber (D ++ '.' :: F) =
      JSNumber.val ((digitsVal D : ℚ) + (digitsVal F : ℚ) / 10 ^ F.length) := by
    rw [hnum]; simp
  have hfl := jsParseFloat_sign_digit [] (D ++ '.' :: F) _ [] (Or.inl rfl) hhead hp
  rw [List.nil_append] at hfl
  have hfl' : jsParseFloat (D ++ '.' :: F) =
      JSNumber.val ((digitsVal D : ℚ) + (digitsVal F : ℚ) / 10 ^ F.length) := by
    rw [hfl]; simp
  unfold parseDuration
  rw [if_neg hs]
  simp only [hclean, hnum', hfl']
  simp

/-- `Number` on a pure digit string. -/
theorem jsNumber_digits (D : List Char)
    (hD : ∀ c ∈ D, jsDigit c = true) (hne : D ≠ []) :
    jsNumber D = JSNumber.val ((digitsVal D : ℚ)) := by
  have hhead : ∃ d, D.head? = some d ∧ jsDigit d = true := by
    cases D with
    | nil => exact absurd rfl hne
    | cons d D' => exact ⟨d, rfl, hD d (List.mem_cons_self d D')⟩
  have h2 : ∀ c, D.tail.head? = some c →
      c ≠ 'x' ∧ c ≠ 'X' ∧ c ≠ 'o' ∧ c ≠ 'O' ∧ c ≠ 'b' ∧ c ≠ 'B' := by
    intro c hc
    rcases second_of_digits_append D [] hD hne c (by rwa [List.append_nil]) with hdg | hr
    · exact not_radix_letter_of_digit c hdg
    · simp at hr
  have hp := parseUnsignedDecimal_digits D hD hne
  have htrim : jsTrim ([] ++ D) = [] ++ D := by
    rw [List.nil_append]
    exact jsTrim_eq_self_of_mem D (fun c hc => jsDigit_not_ws c (hD c hc))
  have hnum := jsNumber_sign_digit [] D _ [] (Or.inl rfl) hhead h2 htrim hp
  rw [List.nil_append] at hnum
  simp only [if_pos rfl] at hnum
  rw [hnum]
  simp

/-- The nonempty-leftover cases of `jsNumber_sign_digit`, packaged. -/
theorem jsNumber_sign_digit_nan (S t : List Char) (q : ℚ) (b : Char) (r : List Char)
    (hS : S = [] ∨ S = ['-'])
    (hhead : ∃ d, t.head? = some d ∧ jsDigit d = true)
    (h2 : ∀ c, t.tail.head? = some c →
      c ≠ 'x' ∧ c ≠ 'X' ∧ c ≠ 'o' ∧ c ≠ 'O' ∧ c ≠ 'b' ∧ c ≠ 'B')
    (htrim : jsTrim (S ++ t) = S ++ t)
    (hp : parseUnsignedDecimal t = some (q, b :: r)) :
    jsNumber (S ++ t) = JSNumber.nan := by
  have h := jsNumber_sign_digit S t q (b :: r) hS hhead h2 htrim hp
  rw [h, if_neg (by simp)]

/-- `parseDuration` on input that canonicalizes to `H:MM` with digit-string
parts. -/
theorem parseDuration_clean_colon (s H M : List Char) (hs : s ≠ [])
    (hclean : jsTrim (jsToLower s) = H ++ ':' :: M)
    (hH : ∀ c ∈ H, jsDigit c = true) (hHne : H ≠ [])
    (hM : ∀ c ∈ M, jsDigit c = true) (hMne : M ≠ []) :
    parseDuration s =
      some (JSNumber.val ((digitsVal H : ℚ) + (digitsVal M : ℚ) / 60)) := by
  have hhead : ∃ d, (H ++ ':' :: M).head? = some d ∧ jsDigit d = true := by
    cases H with
    | nil => exact absurd rfl hHne
    | cons d H' => exact ⟨d, rfl, hH d (List.mem_cons_self d H')⟩
  have h2 : ∀ c, (H ++ ':' :: M).tail.head? = some c →
      c ≠ 'x' ∧ c ≠ 'X' ∧ c ≠ 'o' ∧ c ≠ 'O' ∧ c ≠ 'b' ∧ c ≠ 'B' := by
    intro c hc
    rcases second_of_digits_append H (':' :: M) hH hHne c hc with hdg | hr
    · exact not_radix_letter_of_digit c hdg
    · rw [List.head?_cons, Option.some_inj] at hr
      subst hr
      refine ⟨?_, ?_, ?_, ?_, ?_, ?_⟩ <;> decide
  have hp := parseUnsignedDecimal_digits_break H M ':' hH hHne (by decide) (by decide)
    (by decide) (by decide)
  have htrim : jsTrim ([] ++ (H ++ ':' :: M)) = [] ++ (H ++ ':' :: M) := by
    rw [List.nil_append]
    apply jsTrim_eq_self_of_mem
    intro c hc
    rcases List.mem_append.mp hc with hc | hc
    · exact jsDigit_not_ws c (hH c hc)
    · rcases List.mem_cons.mp hc with rfl | hc
      · decide
      · exact jsDigit_not_ws c (hM c hc)
  have hnum := jsNumber_sign_digit_nan [] (H ++ ':' :: M) _ ':' M (Or.inl rfl)
    hhead h2 htrim hp
  rw [List.nil_append] at hnum
  have hHc : ':' ∉ H := fun hm => absurd (hH ':' hm) (by decide)
  have hMc : ':' ∉ M := fun hm => absurd (hM ':' hm) (by decide)
  have hsplit : splitOnChar ':' (H ++ ':' :: M) = [H, M] := by
    rw [splitOnChar_append ':' H M hHc, splitOnChar_not_mem ':' M hMc]
  have hmem : ':' ∈ H ++ ':' :: M := List.mem_append_right H (List.mem_cons_self ':' M)
  have hnH := jsNumber_digits H hH hHne
  have hnM := jsNumber_digits M hM hMne
  unfold parseDuration
  rw [if_neg hs]
  simp only [hclean, hnum, hsplit, if_pos hmem]
  simp [hnH, hnM, jsAdd, jsDiv60]

/-- The `h`/`m` regex skips a leading whitespace block. -/
theorem matchNumBefore_ws_skip (t : Char) (W X : List Char)
    (hW : ∀ c ∈ W, jsWhitespace c = true) :
    matchNumBefore t (W ++ X) = matchNumBefore t X := by
  induction W with
  | nil => rw [List.nil_append]
  | cons w W' ih =>
    rw [List.cons_append,
      matchNumBefore_cons_nondigit t w (W' ++ X)
        (ws_not_digit w (hW w (List.mem_cons_self w W')))]
    exact ih (fun c hc => hW c (List.mem_cons_of_mem w hc))

/-- The `h`/`m` regex skips an optional leading minus sign. -/
theorem matchNumBefore_sign_skip (t : Char) (S X : List Char)
    (hS : S = [] ∨ S = ['-']) :
    matchNumBefore t (S ++ X) = matchNumBefore t X := by
  rcases hS with rfl | rfl
  · rw [List.nil_append]
  · rw [List.singleton_append, matchNumBefore_cons_nondigit t '-' X (by decide)]

/-- `parseDuration` on input that canonicalizes to `<digits>h`, with an
optional minus sign that the regex section ignores. -/
theorem parseDuration_clean_h (s S D : List Char) (hs : s ≠ [])
    (hS : S = [] ∨ S = ['-'])
    (hclean : jsTrim (jsToLower s) = S ++ (D ++ ['h']))
    (hD : ∀ c ∈ D, jsDigit c = true) (hne : D ≠ []) :
    parseDuration s = some (JSNumber.val ((digitsVal D : ℚ))) := by
  have hhead : ∃ d, (D ++ ['h']).head? = some d ∧ jsDigit d = true := by
    cases D with
    | nil => exact absurd rfl hne
    | cons d D' => exact ⟨d, rfl, hD d (List.mem_cons_self d D')⟩
  have h2 : ∀ c, (D ++ ['h']).tail.head? = some c →
      c ≠ 'x' ∧ c ≠ 'X' ∧ c ≠ 'o' ∧ c ≠ 'O' ∧ c ≠ 'b' ∧ c ≠ 'B' := by
    intro c hc
    rcases second_of_digits_append D ['h'] hD hne c hc with hdg | hr
    · exact not_radix_letter_of_digit c hdg
    · rw [List.head?_cons, Option.some_inj] at hr
      subst hr
      refine ⟨?_, ?_, ?_, ?_, ?_, ?_⟩ <;> decide
  have hp := parseUnsignedDecimal_digits_break D [] 'h' hD hne (by decide) (by decide)
    (by decide) (by decide)
  have hmemS : ∀ c ∈ S ++ (D ++ ['h']), c ∈ S ∨ jsDigit c = true ∨ c = 'h' := by
    intro c hc
    rcases List.mem_append.mp hc with hc | hc
    · exact Or.inl hc
    · rcases List.mem_append.mp hc with hc | hc
      · exact Or.inr (Or.inl (hD c hc))
      · rcases List.mem_cons.mp hc with rfl | hc
        · exact Or.inr (Or.inr rfl)
        · simp at hc
  have htrim : jsTrim (S ++ (D ++ ['h'])) = S ++ (D ++ ['h']) := by
    apply jsTrim_eq_self_of_mem
    intro c hc
    rcases hmemS c hc with hc | hc | rfl
    · rcases hS with rfl | rfl
      · simp at hc
      · rcases List.mem_cons.mp hc with rfl | hc
        · decide
        · simp at hc
    · exact jsDigit_not_ws c hc
    · decide
  have hnum := jsNumber_sign_digit_nan S (D ++ ['h']) _ 'h' [] hS hhead h2 htrim hp
  have hcol : ':' ∉ S ++ (D ++ ['h']) := by
    intro hc
    rcases hmemS ':' hc with hc | hc | hc
    · rcases hS with rfl | rfl
      · simp at hc
      · rcases List.mem_cons.mp hc with hc | hc <;> simp at hc
    · exact absurd hc (by decide)
    · exact absurd hc (by decide)
  have hhm : matchNumBefore 'h' (S ++ (D ++ ['h'])) = some ((digitsVal D : ℚ)) := by
    rw [matchNumBefore_sign_skip 'h' S (D ++ ['h']) hS]
    apply matchNumBefore_of_tryNumAt
    have := tryNumAt_token 'h' D [] [] hD hne (by simp) (by decide) (by decide) (by decide)
    rwa [List.nil_append] at this
  have hmm : matchNumBefore 'm' (S ++ (D ++ ['h'])) = none := by
    apply matchNumBefore_of_not_mem
    intro hc
    rcases hmemS 'm' hc with hc | hc | hc
    · rcases hS with rfl | rfl
      · simp at hc
      · rcases List.mem_cons.mp hc with hc | hc <;> simp at hc
    · exact absurd hc (by decide)
    · exact absurd hc (by decide)
  unfold parseDuration
  rw [if_neg hs]
  simp only [hclean, hnum, if_neg hcol, hhm, hmm]
  simp

/-- `parseDuration` on input that canonicalizes to `<digits>m`, with an
optional minus sign that the regex section ignores. -/
theorem parseDuration_clean_m (s S M : List Char) (hs : s ≠ [])
    (hS : S = [] ∨ S = ['-'])
    (hclean : jsTrim (jsToLower s) = S ++ (M ++ ['m']))
    (hM : ∀ c ∈ M, jsDigit c = true) (hne : M ≠ []) :
    parseDuration s = some (JSNumber.val ((digitsVal M : ℚ) / 60)) := by
  have hhead : ∃ d, (M ++ ['m']).head? = some d ∧ jsDigit d = true := by
    cases M with
    | nil => exact absurd rfl hne
    | cons d M' => exact ⟨d, rfl, hM d (List.mem_cons_self d M')⟩
  have h2 : ∀ c, (M ++ ['m']).tail.head? = some c →
      c ≠ 'x' ∧ c ≠ 'X' ∧ c ≠ 'o' ∧ c ≠ 'O' ∧ c ≠ 'b' ∧ c ≠ 'B' := by
    intro c hc
    rcases second_of_digits_append M ['m'] hM hne c hc with hdg | hr
    · exact not_radix_letter_of_digit c hdg
    · rw [List.head?_cons, Option.some_inj] at hr
      subst hr
      refine ⟨?_, ?_, ?_, ?_, ?_, ?_⟩ <;> decide
  have hp := parseUnsignedDecimal_digits_break M [] 'm' hM hne (by decide) (by decide)
    (by decide) (by decide)
  have hmemS : ∀ c ∈ S ++ (M ++ ['m']), c ∈ S ∨ jsDigit c = true ∨ c = 'm' := by
    intro c hc
    rcases List.mem_append.mp hc with hc | hc
    · exact Or.inl hc
    · rcases List.mem_append.mp hc with hc | hc
      · exact Or.inr (Or.inl (hM c hc))
      · rcases List.mem_cons.mp hc with rfl | hc
        · exact Or.inr (Or.inr rfl)
        · simp at hc
  have htrim : jsTrim (S ++ (M ++ ['m'])) = S ++ (M ++ ['m']) := by
    apply jsTrim_eq_self_of_mem
    intro c hc
    rcases hmemS c hc with hc | hc | rfl
    · rcases hS with rfl | rfl
      · simp at hc
      · rcases List.mem_cons.mp hc with rfl | hc
        · decide
        · simp at hc
    · exact jsDigit_not_ws c hc
    · decide
  have hnum := jsNumber_sign_digit_nan S (M ++ ['m']) _ 'm' [] hS hhead h2 htrim hp
  have hcol : ':' ∉ S ++ (M ++ ['m']) := by
    intro hc
    rcases hmemS ':' hc with hc | hc | hc
    · rcases hS with rfl | rfl
      · simp at hc
      · rcases List.mem_cons.mp hc with hc | hc <;> simp at hc
    · exact absurd hc (by decide)
    · exact absurd hc (by decide)
  have hhm : matchNumBefore 'h' (S ++ (M ++ ['m'])) = none := by
    apply matchNumBefore_of_not_mem
    intro hc
    rcases hmemS 'h' hc with hc | hc | hc
    · rcases hS with rfl | rfl
      · simp at hc
      · rcases List.mem_cons.mp hc with hc | hc <;> simp at hc
    · exact absurd hc (by decide)
    · exact absurd hc (by decide)
  have hmm : matchNumBefore 'm' (S ++ (M ++ ['m'])) = some ((digitsVal M : ℚ)) := by
    rw [matchNumBefore_sign_skip 'm' S (M ++ ['m']) hS]
    apply matchNumBefore_of_tryNumAt
    have := tryNumAt_token 'm' M [] [] hM hne (by simp) (by decide) (by decide) (by decide)
    rwa [List.nil_append] at this
  unfold parseDuration
  rw [if_neg hs]
  simp only [hclean, hnum, if_neg hcol, hhm, hmm]
  simp

/-- `parseDuration` on input that canonicalizes to
`<digits>h<whitespace><digits>m`, with an optional minus sign that the
regex section ignores. -/
theorem parseDuration_clean_hm (s S D W M : List Char) (hs : s ≠ [])
    (hS : S = [] ∨ S = ['-'])
    (hclean : jsTrim (jsToLower s) = S ++ (D ++ 'h' :: (W ++ (M ++ ['m']))))
    (hD : ∀ c ∈ D, jsDigit c = true) (hDne : D ≠ [])
    (hW : ∀ c ∈ W, jsWhitespace c = true)
    (hM : ∀ c ∈ M, jsDigit c = true) (hMne : M ≠ []) :
    parseDuration s =
      some (JSNumber.val ((digitsVal D : ℚ) + (digitsVal M : ℚ) / 60)) := by
  have hhead : ∃ d, (D ++ 'h' :: (W ++ (M ++ ['m']))).head? = some d ∧
      jsDigit d = true := by
    cases D with
    | nil => exact absurd rfl hDne
    | cons d D' => exact ⟨d, rfl, hD d (List.mem_cons_self d D')⟩
  have h2 : ∀ c, (D ++ 'h' :: (W ++ (M ++ ['m']))).tail.head? = some c →
      c ≠ 'x' ∧ c ≠ 'X' ∧ c ≠ 'o' ∧ c ≠ 'O' ∧ c ≠ 'b' ∧ c ≠ 'B' := by
    intro c hc
    rcases second_of_digits_append D ('h' :: (W ++ (M ++ ['m']))) hD hDne c hc with hdg | hr
    · exact not_radix_letter_of_digit c hdg
    · rw [List.head?_cons, Option.some_inj] at hr
      subst hr
      refine ⟨?_, ?_, ?_, ?_, ?_, ?_⟩ <;> decide
  have hp := parseUnsignedDecimal_digits_break D (W ++ (M ++ ['m'])) 'h' hD hDne
    (by decide) (by decide) (by decide) (by decide)
  have hmemS : ∀ c ∈ S ++ (D ++ 'h' :: (W ++ (M ++ ['m']))),
      c ∈ S ∨ jsDigit c = true ∨ c = 'h' ∨ jsWhitespace c = true ∨ c = 'm' := by
    intro c hc
    rcases List.mem_append.mp hc with hc | hc
    · exact Or.inl hc
    rcases List.mem_append.mp hc with hc | hc
    · exact Or.inr (Or.inl (hD c hc))
    rcases List.mem_cons.mp hc with rfl | hc
    · exact Or.inr (Or.inr (Or.inl rfl))
    rcases List.mem_append.mp hc with hc | hc
    · exact Or.inr (Or.inr (Or.inr (Or.inl (hW c hc))))
    rcases List.mem_append.mp hc with hc | hc
    · exact Or.inr (Or.inl (hM c hc))
    rcases List.mem_cons.mp hc with rfl | hc
    · exact Or.inr (Or.inr (Or.inr (Or.inr rfl)))
    · simp at hc
  have hShead : ∀ c, (S ++ (D ++ 'h' :: (W ++ (M ++ ['m'])))).head? = some c →
      jsWhitespace c = false := by
    intro c hc
    rcases hS with rfl | rfl
    · rw [List.nil_append] at hc
      obtain ⟨d, hd, hdig⟩ := hhead
      rw [hd, Option.some_inj] at hc
      exact hc ▸ jsDigit_not_ws d hdig
    · rw [List.singleton_append, List.head?_cons, Option.some_inj] at hc
      subst hc
      decide
  have hlast : (S ++ (D ++ 'h' :: (W ++ (M ++ ['m'])))).getLast? = some 'm' := by
    rw [List.getLast?_append_of_ne_nil S (by simp)]
    rw [List.getLast?_append_of_ne_nil D (by simp)]
    rw [show ('h' :: (W ++ (M ++ ['m']))) = ['h'] ++ (W ++ (M ++ ['m'])) from rfl]
    rw [List.getLast?_append_of_ne_nil ['h'] (by simp)]
    rw [List.getLast?_append_of_ne_nil W (by simp)]
    rw [List.getLast?_append_of_ne_nil M (by simp)]
    rfl
  have htrim : jsTrim (S ++ (D ++ 'h' :: (W ++ (M ++ ['m'])))) =
      S ++ (D ++ 'h' :: (W ++ (M ++ ['m']))) := by
    apply jsTrim_eq_self _ hShead
    intro c hc
    rw [hlast, Option.some_inj] at hc
    subst hc
    decide
  have hnum := jsNumber_sign_digit_nan S (D ++ 'h' :: (W ++ (M ++ ['m']))) _ 'h'
    (W ++ (M ++ ['m'])) hS hhead h2 htrim hp
  have hcol : ':' ∉ S ++ (D ++ 'h' :: (W ++ (M ++ ['m']))) := by
    intro hc
    rcases hmemS ':' hc with hc | hc | hc | hc | hc
    · rcases hS with rfl | rfl
      · simp at hc
      · rcases List.mem_cons.mp hc with hc | hc <;> simp at hc
    · exact absurd hc (by decide)
    · exact absurd hc (by decide)
    · exact absurd hc (by decide)
    · exact absurd hc (by decide)
  have hhm : matchNumBefore 'h' (S ++ (D ++ 'h' :: (W ++ (M ++ ['m'])))) =
      some ((digitsVal D : ℚ)) := by
    rw [matchNumBefore_sign_skip 'h' S _ hS]
    apply matchNumBefore_of_tryNumAt
    have := tryNumAt_token 'h' D [] (W ++ (M ++ ['m'])) hD hDne (by simp) (by decide)
      (by decide) (by decide)
    rwa [List.nil_append] at this
  have hmm : matchNumBefore 'm' (S ++ (D ++ 'h' :: (W ++ (M ++ ['m'])))) =
      some ((digitsVal M : ℚ)) := by
    rw [matchNumBefore_sign_skip 'm' S _ hS]
    rw [matchNumBefore_digits_block 'm' 'h' D (W ++ (M ++ ['m'])) hD (by decide)
      (by decide) (by decide) (by decide)]
    rw [matchNumBefore_ws_skip 'm' W (M ++ ['m']) hW]
    apply matchNumBefore_of_tryNumAt
    have := tryNumAt_token 'm' M [] [] hM hMne (by simp) (by decide) (by decide) (by decide)
    rwa [List.nil_append] at this
  unfold parseDuration
  rw [if_neg hs]
  simp only [hclean, hnum, if_neg hcol, hhm, hmm]
  simp

/-- `parseDuration` rejects nonempty, non-blank input containing neither a
digit nor a colon. -/
theorem parseDuration_garbage (s : List Char) (hs : s ≠ [])
    (hnd : ∀ c ∈ s, jsDigit c = false) (hcol : ':' ∉ s)
    (hws : ∃ c ∈ s, jsWhitespace c = false) :
    parseDuration s = none := by
  have hndc : ∀ c ∈ jsTrim (jsToLower s), jsDigit c = false := by
    intro c hc
    obtain ⟨c', hc', rfl⟩ := List.mem_map.mp (mem_jsTrim c _ hc)
    rw [jsDigit_jsToLowerChar]
    exact hnd c' hc'
  have hcolc : ':' ∉ jsTrim (jsToLower s) := by
    intro hc
    obtain ⟨c', hc', heq⟩ := List.mem_map.mp (mem_jsTrim _ _ hc)
    exact hcol (jsToLowerChar_eq_colon c' heq ▸ hc')
  have hIc : 'I' ∉ jsTrim (jsToLower s) := by
    intro hc
    obtain ⟨c', hc', heq⟩ := List.mem_map.mp (mem_jsTrim _ _ hc)
    exact jsToLowerChar_ne_I c' heq
  have hnnil : jsTrim (jsToLower s) ≠ [] := by
    intro hnil
    obtain ⟨c, hcm, hcw⟩ := hws
    have hall := all_ws_of_jsTrim_eq_nil _ hnil (jsToLowerChar c)
      (List.mem_map_of_mem jsToLowerChar hcm)
    rw [jsWhitespace_jsToLowerChar, hcw] at hall
    exact Bool.false_ne_true hall
  have hnan : jsNumber (jsTrim (jsToLower s)) = JSNumber.nan := by
    by_contra hne
    rcases jsNumber_ne_nan_mem _ hne with h0 | ⟨d, hd, hdig⟩ | hI
    · rw [jsTrim_idem] at h0
      exact hnnil h0
    · rw [hndc d hd] at hdig
      exact Bool.false_ne_true hdig
    · exact hIc hI
  have hh := matchNumBefore_no_digit 'h' _ hndc
  have hm := matchNumBefore_no_digit 'm' _ hndc
  unfold parseDuration
  rw [if_neg hs]
  simp only [hnan, if_neg hcolc, hh, hm]
  simp

/-! ## Shape analysis of `formatHours` output -/

/-- A digit character is not a capital ASCII letter. -/
theorem not_upper_of_digit (c : Char) (h : jsDigit c = true) :
    ¬(65 ≤ c.toNat ∧ c.toNat ≤ 90) := by
  simp only [jsDigit, decide_eq_true_eq] at h
  omega

/-- Canonicalization fixes a string with no capital letters and
non-whitespace ends. -/
theorem clean_fixed (l : List Char)
    (hup : ∀ c ∈ l, ¬(65 ≤ c.toNat ∧ c.toNat ≤ 90))
    (h1 : ∀ c, l.head? = some c → jsWhitespace c = false)
    (h2 : ∀ c, l.getLast? = some c → jsWhitespace c = false) :
    jsTrim (jsToLower l) = l := by
  rw [jsToLower_eq_self l hup]
  exact jsTrim_eq_self l h1 h2

/-- `formatHours`, rewritten as a top-level case split on the hour and
minute components. -/
theorem formatHours_cases (x : ℚ) :
    formatHours x =
      if (⌊|x|⌋).toNat = 0 ∧ (jsRound ((|x| - ((⌊|x|⌋).toNat : ℚ)) * 60)).toNat = 0
      then ['0', 'h']
      else
        (if x < 0 then ['-'] else []) ++
          jsTrim
            ((if 0 < (⌊|x|⌋).toNat then natDigits ((⌊|x|⌋).toNat) ++ ['h'] else []) ++
              (if 0 < (jsRound ((|x| - ((⌊|x|⌋).toNat : ℚ)) * 60)).toNat
               then ' ' ::
                 (natDigits ((jsRound ((|x| - ((⌊|x|⌋).toNat : ℚ)) * 60)).toNat) ++ ['m'])
               else [])) := by
  simp only [formatHours]
  split_ifs <;> simp

/-- C10: when the rounded minute component is exactly 60, `formatHours`
renders it verbatim, so the output ends in the component `60m` instead of
carrying the overflow into the hour component. -/
theorem formatHours_sixty_minutes (x : ℚ)
    (h : jsRound ((|x| - ((⌊|x|⌋).toNat : ℚ)) * 60) = 60) :
    ∃ pre, formatHours x = pre ++ ['6', '0', 'm'] := by
  rw [formatHours_cases x, h]
  have h60 : ((60 : ℤ)).toNat = 60 := rfl
  rw [h60]
  rw [if_neg (by simp : ¬((⌊|x|⌋).toNat = 0 ∧ (60 : ℕ) = 0))]
  rw [if_pos (by norm_num : (0 : ℕ) < 60)]
  have h6 : natDigits 60 = ['6', '0'] := rfl
  rw [h6]
  by_cases hh : 0 < (⌊|x|⌋).toNat
  · rw [if_pos hh]
    have hD := natDigits_digits ((⌊|x|⌋).toNat)
    have hne := natDigits_ne_nil ((⌊|x|⌋).toNat)
    have htrim : jsTrim ((natDigits ((⌊|x|⌋).toNat) ++ ['h']) ++
        ' ' :: (['6', '0'] ++ ['m'])) =
        (natDigits ((⌊|x|⌋).toNat) ++ ['h']) ++ ' ' :: (['6', '0'] ++ ['m']) := by
      apply jsTrim_eq_self
      · intro c hc
        rw [head?_append_of_ne_nil _ _ (by simp [hne]),
          head?_append_of_ne_nil _ _ hne] at hc
        exact jsDigit_not_ws c (hD c (List.mem_of_mem_head? hc))
      · intro c hc
        rw [List.getLast?_append_of_ne_nil _ (by simp)] at hc
        have hl : (' ' :: (['6', '0'] ++ ['m'])).getLast? = some 'm' := by decide
        rw [hl, Option.some_inj] at hc
        subst hc
        decide
    refine ⟨(if x < 0 then ['-'] else []) ++ (natDigits ((⌊|x|⌋).toNat) ++ ['h', ' ']), ?_⟩
    rw [htrim]
    simp
  · rw [if_neg hh, List.nil_append]
    have ht : jsTrim (' ' :: (['6', '0'] ++ ['m'])) = ['6', '0', 'm'] := by decide
    rw [ht]
    exact ⟨(if x < 0 then ['-'] else []), by simp⟩

theorem formatHours_sixty_minutes_witness :
    jsRound ((|(19999 / 10000 : ℚ)| - ((⌊|(19999 / 10000 : ℚ)|⌋).toNat : ℚ)) * 60) = 60 ∧
      ∃ pre, formatHours (19999 / 10000 : ℚ) = pre ++ ['6', '0', 'm'] :=
  ⟨by with_unfolding_all decide,
    formatHours_sixty_minutes (19999 / 10000 : ℚ) (by with_unfolding_all decide)⟩

/-- Every accepted form starts with a decimal digit. -/
theorem acceptedForm_head_digit (t : List Char) (h : AcceptedDurationForm t) :
    ∃ d, t.head? = some d ∧ jsDigit d = true := by
  have key : ∀ (X rest : List Char), X ≠ [] → (∀ c ∈ X, jsDigit c = true) →
      ∃ d, (X ++ rest).head? = some d ∧ jsDigit d = true := by
    intro X rest hne hX
    cases X with
    | nil => exact absurd rfl hne
    | cons x X' => exact ⟨x, rfl, hX x (List.mem_cons_self x X')⟩
  rcases h with ⟨D, hne, hD, ht | ⟨F, hFne, hF, ht⟩⟩ | ⟨H, M, hHne, hMne, hH, hM, ht⟩ | hc
  · rw [ht]
    have := key D [] hne hD
    rwa [List.append_nil] at this
  · rw [ht]
    exact key D ('.' :: F) hne hD
  · rw [ht]
    exact key H (':' :: M) hHne hH
  · rcases hc with ⟨D, hne, hD, ht⟩ | ⟨M, hne, hM, ht⟩ |
      ⟨D, W, M, hDne, hMne, hD, hW, hM, ht⟩
    · rw [ht]
      exact key D ['h'] hne hD
    · rw [ht]
      exact key M ['m'] hne hM
    · rw [ht]
      exact key D ('h' :: (W ++ (M ++ ['m']))) hDne hD

/-- C9: `parseDuration` returns `null` on the empty string; it returns a
numeric fractional-hour value on every input whose canonicalized form is an
accepted duration form; and it returns `null` on every nonempty, non-blank
input containing neither a digit nor a colon. -/
theorem parseDuration_forms :
    parseDuration [] = none
    ∧ (∀ s : List Char, s ≠ [] → AcceptedDurationForm (jsTrim (jsToLower s)) →
        ∃ q : ℚ, parseDuration s = some (JSNumber.val q))
    ∧ (∀ s : List Char, s ≠ [] → (∀ c ∈ s, jsDigit c = false) → ':' ∉ s →
        (∃ c ∈ s, jsWhitespace c = false) → parseDuration s = none) := by
  refine ⟨rfl, ?_, parseDuration_garbage⟩
  intro s hs hform
  rcases hform with ⟨D, hne, hD, ht | ⟨F, hFne, hF, ht⟩⟩ |
    ⟨H, M, hHne, hMne, hH, hM, ht⟩ | hc
  · exact ⟨_, parseDuration_clean_digits s D hs ht hD hne⟩
  · exact ⟨_, parseDuration_clean_frac s D F hs ht hD hne hF hFne⟩
  · exact ⟨_, parseDuration_clean_colon s H M hs ht hH hHne hM hMne⟩
  · rcases hc with ⟨D, hne, hD, ht⟩ | ⟨M, hne, hM, ht⟩ |
      ⟨D, W, M, hDne, hMne, hD, hW, hM, ht⟩
    · exact ⟨_, parseDuration_clean_h s [] D hs (Or.inl rfl)
        (by rwa [List.nil_append]) hD hne⟩
    · exact ⟨_, parseDuration_clean_m s [] M hs (Or.inl rfl)
        (by rwa [List.nil_append]) hM hne⟩
    · exact ⟨_, parseDuration_clean_hm s [] D W M hs (Or.inl rfl)
        (by rwa [List.nil_append]) hD hDne hW hM hMne⟩

/-- C9 counterexample: the bare string `":"` matches no accepted duration
form, yet `parseDuration` returns the value `0` rather than `null`
(`"".split` around the colon yields two empty parts and `Number("") = 0`). -/
theorem parseDuration_colon_only :
    parseDuration [':'] = some (JSNumber.val 0) ∧ ([':'] : List Char) ≠ [] ∧
      ¬AcceptedDurationForm (jsTrim (jsToLower [':'])) := by
  refine ⟨by with_unfolding_all decide, by simp, ?_⟩
  intro h
  obtain ⟨d, hd, hdig⟩ := acceptedForm_head_digit _ h
  have ht : jsTrim (jsToLower [':']) = [':'] := by decide
  rw [ht, List.head?_cons, Option.some_inj] at hd
  subst hd
  exact absurd hdig (by decide)

theorem parseDuration_forms_witness :
    (∃ q : ℚ, parseDuration ['1', 'H', ' ', '3', '0', 'M'] = some (JSNumber.val q)) ∧
      parseDuration ['@'] = none :=
  ⟨parseDuration_forms.2.1 ['1', 'H', ' ', '3', '0', 'M'] (by simp)
      (Or.inr (Or.inr (Or.inr (Or.inr ⟨['1'], [' '], ['3', '0'], by simp, by simp,
        by decide, by decide, by decide, by decide⟩)))),
    parseDuration_forms.2.2 ['@'] (by simp) (by decide) (by decide)
      ⟨'@', List.mem_cons_self '@' [], by decide⟩⟩

/-- `parseDuration` on a formatted hours-only output `[-]<digits>h`. -/
theorem parseDuration_fmt_h (S D : List Char) (hS : S = [] ∨ S = ['-'])
    (hD : ∀ c ∈ D, jsDigit c = true) (hne : D ≠ []) :
    parseDuration (S ++ jsTrim ((D ++ ['h']) ++ [])) =
      some (JSNumber.val ((digitsVal D : ℚ))) := by
  rw [List.append_nil]
  have htrim : jsTrim (D ++ ['h']) = D ++ ['h'] := by
    apply jsTrim_eq_self_of_mem
    intro c hc
    rcases List.mem_append.mp hc with hc | hc
    · exact jsDigit_not_ws c (hD c hc)
    · rw [List.mem_singleton] at hc
      subst hc
      decide
  rw [htrim]
  have hs : S ++ (D ++ ['h']) ≠ [] := by
    rcases hS with rfl | rfl <;> simp
  have hclean : jsTrim (jsToLower (S ++ (D ++ ['h']))) = S ++ (D ++ ['h']) := by
    apply clean_fixed
    · intro c hc
      rcases List.mem_append.mp hc with hc | hc
      · rcases hS with rfl | rfl
        · simp at hc
        · rw [List.mem_singleton] at hc
          subst hc
          decide
      · rcases List.mem_append.mp hc with hc | hc
        · exact not_upper_of_digit c (hD c hc)
        · rw [List.mem_singleton] at hc
          subst hc
          decide
    · intro c hc
      rcases hS with rfl | rfl
      · rw [List.nil_append, head?_append_of_ne_nil _ _ hne] at hc
        exact jsDigit_not_ws c (hD c (List.mem_of_mem_head? hc))
      · rw [List.singleton_append, List.head?_cons, Option.some_inj] at hc
        subst hc
        decide
    · intro c hc
      rw [List.getLast?_append_of_ne_nil S (by simp),
        List.getLast?_append_of_ne_nil D (by simp),
        show (['h'] : List Char).getLast? = some 'h' from rfl, Option.some_inj] at hc
      subst hc
      decide
  exact parseDuration_clean_h _ S D hs hS hclean hD hne

/-- `parseDuration` on a formatted minutes-only output `[-]<digits>m`. -/
theorem parseDuration_fmt_m (S M : List Char) (hS : S = [] ∨ S = ['-'])
    (hM : ∀ c ∈ M, jsDigit c = true) (hne : M ≠ []) :
    parseDuration (S ++ jsTrim ([] ++ ' ' :: (M ++ ['m']))) =
      some (JSNumber.val ((digitsVal M : ℚ) / 60)) := by
  rw [List.nil_append, jsTrim_cons_ws ' ' _ (by decide)]
  have htrim : jsTrim (M ++ ['m']) = M ++ ['m'] := by
    apply jsTrim_eq_self_of_mem
    intro c hc
    rcases List.mem_append.mp hc with hc | hc
    · exact jsDigit_not_ws c (hM c hc)
    · rw [List.mem_singleton] at hc
      subst hc
      decide
  rw [htrim]
  have hs : S ++ (M ++ ['m']) ≠ [] := by
    rcases hS with rfl | rfl <;> simp
  have hclean : jsTrim (jsToLower (S ++ (M ++ ['m']))) = S ++ (M ++ ['m']) := by
    apply clean_fixed
    · intro c hc
      rcases List.mem_append.mp hc with hc | hc
      · rcases hS with rfl | rfl
        · simp at hc
        · rw [List.mem_singleton] at hc
          subst hc
          decide
      · rcases List.mem_append.mp hc with hc | hc
        · exact not_upper_of_digit c (hM c hc)
        · rw [List.mem_singleton] at hc
          subst hc
          decide
    · intro c hc
      rcases hS with rfl | rfl
      · rw [List.nil_append, head?_append_of_ne_nil _ _ hne] at hc
        exact jsDigit_not_ws c (hM c (List.mem_of_mem_head? hc))
      · rw [List.singleton_append, List.head?_cons, Option.some_inj] at hc
        subst hc
        decide
    · intro c hc
      rw [List.getLast?_append_of_ne_nil S (by simp),
        List.getLast?_append_of_ne_nil M (by simp),
        show (['m'] : List Char).getLast? = some 'm' from rfl, Option.some_inj] at hc
      subst hc
      decide
  exact parseDuration_clean_m _ S M hs hS hclean hM hne

/-- `parseDuration` on a formatted full output `[-]<digits>h <digits>m`. -/
theorem parseDuration_fmt_hm (S D M : List Char) (hS : S = [] ∨ S = ['-'])
    (hD : ∀ c ∈ D, jsDigit c = true) (hDne : D ≠ [])
    (hM : ∀ c ∈ M, jsDigit c = true) (hMne : M ≠ []) :
    parseDuration (S ++ jsTrim ((D ++ ['h']) ++ ' ' :: (M ++ ['m']))) =
      some (JSNumber.val ((digitsVal D : ℚ) + (digitsVal M : ℚ) / 60)) := by
  have hshape : (D ++ ['h']) ++ ' ' :: (M ++ ['m']) =
      D ++ 'h' :: ([' '] ++ (M ++ ['m'])) := by
    simp
  rw [hshape]
  have hDhead : ∀ c, (D ++ 'h' :: ([' '] ++ (M ++ ['m']))).head? = some c →
      jsWhitespace c = false := by
    intro c hc
    rw [head?_append_of_ne_nil _ _ hDne] at hc
    exact jsDigit_not_ws c (hD c (List.mem_of_mem_head? hc))
  have hlast : ∀ X : List Char,
      (X ++ 'h' :: ([' '] ++ (M ++ ['m']))).getLast? = some 'm' := by
    intro X
    rw [List.getLast?_append_of_ne_nil X (by simp),
      show ('h' :: ([' '] ++ (M ++ ['m']))) = ['h'] ++ ([' '] ++ (M ++ ['m'])) from rfl,
      List.getLast?_append_of_ne_nil ['h'] (by simp),
      List.getLast?_append_of_ne_nil [' '] (by simp),
      List.getLast?_append_of_ne_nil M (by simp)]
    rfl
  have htrim : jsTrim (D ++ 'h' :: ([' '] ++ (M ++ ['m']))) =
      D ++ 'h' :: ([' '] ++ (M ++ ['m'])) := by
    apply jsTrim_eq_self _ hDhead
    intro c hc
    rw [hlast D, Option.some_inj] at hc
    subst hc
    decide
  rw [htrim]
  have hs : S ++ (D ++ 'h' :: ([' '] ++ (M ++ ['m']))) ≠ [] := by
    rcases hS with rfl | rfl <;> simp
  have hclean : jsTrim (jsToLower (S ++ (D ++ 'h' :: ([' '] ++ (M ++ ['m']))))) =
      S ++ (D ++ 'h' :: ([' '] ++ (M ++ ['m']))) := by
    apply clean_fixed
    · intro c hc
      rcases List.mem_append.mp hc with hc | hc
      · rcases hS with rfl | rfl
        · simp at hc
        · rw [List.mem_singleton] at hc
          subst hc
          decide
      rcases List.mem_append.mp hc with hc | hc
      · exact not_upper_of_digit c (hD c hc)
      rcases List.mem_cons.mp hc with rfl | hc
      · decide
      rcases List.mem_append.mp hc with hc | hc
      · rw [List.mem_singleton] at hc
        subst hc
        decide
      rcases List.mem_append.mp hc with hc | hc
      · exact not_upper_of_digit c (hM c hc)
      · rw [List.mem_singleton] at hc
        subst hc
        decide
    · intro c hc
      rcases hS with rfl | rfl
      · rw [List.nil_append] at hc
        exact hDhead c hc
      · rw [List.singleton_append, List.head?_cons, Option.some_inj] at hc
        subst hc
        decide
    · intro c hc
      rcases hS with rfl | rfl
      · rw [List.nil_append, hlast D, Option.some_inj] at hc
        subst hc
        decide
      · rw [show (['-'] ++ (D ++ 'h' :: ([' '] ++ (M ++ ['m'])))).getLast? =
            (D ++ 'h' :: ([' '] ++ (M ++ ['m']))).getLast? from
            List.getLast?_append_of_ne_nil ['-'] (by simp), hlast D,
          Option.some_inj] at hc
        subst hc
        decide
  exact parseDuration_clean_hm _ S D [' '] M hs hS hclean hD hDne
    (by intro c hc; rw [List.mem_singleton] at hc; subst hc; decide) hM hMne

/-- C1 counterexample: for x = -3/2, `formatHours` prints `"-1h 30m"`, but
the regex section of `parseDuration` ignores the sign, returning `3/2`,
which differs from `x` by 3 hours. -/
theorem parseDuration_formatHours_negative :
    parseDuration (formatHours (-(3 / 2) : ℚ)) = some (JSNumber.val (3 / 2)) ∧
      ¬(|(3 / 2 : ℚ) - (-(3 / 2) : ℚ)| ≤ 1 / 60) := by
  constructor
  · with_unfolding_all decide
  · norm_num

/-- C1 (amended): for every `x`, parsing the formatted output succeeds and
returns a value within 1/60 hour of `|x|` (the sign of a negative `x` is
lost by the round-trip). -/
theorem parseDuration_formatHours (x : ℚ) :
    ∃ q : ℚ, parseDuration (formatHours x) = some (JSNumber.val q) ∧
      abs (q - |x|) ≤ 1 / 60 := by
  have ha : (0 : ℚ) ≤ |x| := abs_nonneg x
  have hfl0 : (0 : ℤ) ≤ ⌊|x|⌋ := Int.floor_nonneg.mpr ha
  have hHcast : (((⌊|x|⌋).toNat : ℚ)) = ((⌊|x|⌋ : ℤ) : ℚ) := by
    exact_mod_cast congrArg (fun z : ℤ => (z : ℚ)) (Int.toNat_of_nonneg hfl0)
  have hHle : ((⌊|x|⌋).toNat : ℚ) ≤ |x| := by
    rw [hHcast]
    exact Int.floor_le _
  have hHgt : |x| < ((⌊|x|⌋).toNat : ℚ) + 1 := by
    rw [hHcast]
    exact Int.lt_floor_add_one _
  have hr0 : (0 : ℤ) ≤ jsRound ((|x| - ((⌊|x|⌋).toNat : ℚ)) * 60) := by
    unfold jsRound
    apply Int.floor_nonneg.mpr
    nlinarith
  have hMcast : (((jsRound ((|x| - ((⌊|x|⌋).toNat : ℚ)) * 60)).toNat : ℚ)) =
      ((jsRound ((|x| - ((⌊|x|⌋).toNat : ℚ)) * 60) : ℤ) : ℚ) := by
    exact_mod_cast congrArg (fun z : ℤ => (z : ℚ)) (Int.toNat_of_nonneg hr0)
  have hjr : jsRound ((|x| - ((⌊|x|⌋).toNat : ℚ)) * 60) =
      round ((|x| - ((⌊|x|⌋).toNat : ℚ)) * 60) := by
    rw [round_eq]
    rfl
  have habs : |(|x| - ((⌊|x|⌋).toNat : ℚ)) * 60 -
      ((jsRound ((|x| - ((⌊|x|⌋).toNat : ℚ)) * 60)).toNat : ℚ)| ≤ 1 / 2 := by
    rw [hMcast, hjr]
    exact abs_sub_round _
  have habs' := abs_le.mp habs
  rw [formatHours_cases x]
  by_cases h00 : (⌊|x|⌋).toNat = 0 ∧
      (jsRound ((|x| - ((⌊|x|⌋).toNat : ℚ)) * 60)).toNat = 0
  · rw [if_pos h00]
    refine ⟨0, ?_, ?_⟩
    · have h := parseDuration_clean_h ['0', 'h'] [] ['0'] (by simp) (Or.inl rfl)
        (by decide) (by decide) (by simp)
      simpa using h
    · obtain ⟨hH0, hM0⟩ := h00
      have hH0' : ((⌊|x|⌋).toNat : ℚ) = 0 := by rw [hH0]; norm_num
      have hM0' : ((jsRound ((|x| - ((⌊|x|⌋).toNat : ℚ)) * 60)).toNat : ℚ) = 0 := by
        rw [hM0]; norm_num
      rw [zero_sub, abs_neg, abs_abs]
      linarith [habs'.2, hH0', hM0']
  · rw [if_neg h00]
    have hS : (if x < 0 then ['-'] else ([] : List Char)) = [] ∨
        (if x < 0 then ['-'] else ([] : List Char)) = ['-'] := by
      split
      · exact Or.inr rfl
      · exact Or.inl rfl
    by_cases hHpos : 0 < (⌊|x|⌋).toNat
    · by_cases hMpos : 0 < (jsRound ((|x| - ((⌊|x|⌋).toNat : ℚ)) * 60)).toNat
      · rw [if_pos hHpos, if_pos hMpos]
        refine ⟨((⌊|x|⌋).toNat : ℚ) +
          ((jsRound ((|x| - ((⌊|x|⌋).toNat : ℚ)) * 60)).toNat : ℚ) / 60, ?_, ?_⟩
        · have h := parseDuration_fmt_hm (if x < 0 then ['-'] else [])
            (natDigits ((⌊|x|⌋).toNat))
            (natDigits ((jsRound ((|x| - ((⌊|x|⌋).toNat : ℚ)) * 60)).toNat)) hS
            (natDigits_digits _) (natDigits_ne_nil _)
            (natDigits_digits _) (natDigits_ne_nil _)
          rw [digitsVal_natDigits, digitsVal_natDigits] at h
          exact h
        · rw [abs_le]
          constructor <;> linarith [habs'.1, habs'.2]
      · rw [if_pos hHpos, if_neg hMpos]
        refine ⟨((⌊|x|⌋).toNat : ℚ), ?_, ?_⟩
        · have h := parseDuration_fmt_h (if x < 0 then ['-'] else [])
            (natDigits ((⌊|x|⌋).toNat)) hS (natDigits_digits _) (natDigits_ne_nil _)
          rw [digitsVal_natDigits] at h
          exact h
        · have hM0' : ((jsRound ((|x| - ((⌊|x|⌋).toNat : ℚ)) * 60)).toNat : ℚ) = 0 := by
            rw [Nat.eq_zero_of_not_pos hMpos]
            norm_num
          rw [abs_sub_comm, abs_le]
          constructor
          · linarith [hHle]
          · linarith [habs'.2, hM0']
    · by_cases hMpos : 0 < (jsRound ((|x| - ((⌊|x|⌋).toNat : ℚ)) * 60)).toNat
      · rw [if_neg hHpos, if_pos hMpos]
        refine ⟨((jsRound ((|x| - ((⌊|x|⌋).toNat : ℚ)) * 60)).toNat : ℚ) / 60, ?_, ?_⟩
        · have h := parseDuration_fmt_m (if x < 0 then ['-'] else [])
            (natDigits ((jsRound ((|x| - ((⌊|x|⌋).toNat : ℚ)) * 60)).toNat)) hS
            (natDigits_digits _) (natDigits_ne_nil _)
          rw [digitsVal_natDigits] at h
          exact h
        · have hH0' : ((⌊|x|⌋).toNat : ℚ) = 0 := by
            rw [Nat.eq_zero_of_not_pos hHpos]
            norm_num
          rw [abs_le]
          constructor <;> linarith [habs'.1, habs'.2, hH0']
      · exact absurd ⟨Nat.eq_zero_of_not_pos hHpos, Nat.eq_zero_of_not_pos hMpos⟩ h00
